import Mathlib

/-!
Verification of the in-memory caching layer: the AVL-backed `ItemAVL`
cache (file `src/schema.ts`, class `ItemAVL`) and the bucketed LRU hash
table `UserHashTable` (file `src/utils/UserHashTable.ts`).

The embedding is shallow: each TypeScript method becomes a Lean function
on an explicit tree / table value; the mutable `this.root` field becomes
the tree argument and result.  Node heights are stored in the tree
exactly as the source stores them in `TreeNode.height`; all rebalancing
decisions read the stored heights, as the source does.
-/

set_option maxHeartbeats 1000000

namespace AvlCache

/-- `TreeNode` from `ItemAVL`: a node stores `left`, `id`, `data`, the
cached `height` field, and `right`.  `leaf` is the `null` pointer. -/
inductive Tree (α : Type) where
  | leaf : Tree α
  | node : Tree α → Int → α → Nat → Tree α → Tree α
deriving DecidableEq, Repr

variable {α : Type}

/-- `getHeight`: `node ? node.height : 0`. -/
def getHeight : Tree α → Nat
  | .leaf => 0
  | .node _ _ _ h _ => h

/-- `getBalance`: `getHeight(node.left) - getHeight(node.right)` (0 for null). -/
def getBalance : Tree α → Int
  | .leaf => 0
  | .node l _ _ _ r => (getHeight l : Int) - (getHeight r : Int)

/-- `updateHeight`: `node.height = max(h(left), h(right)) + 1`. -/
def updateHeight : Tree α → Tree α
  | .leaf => .leaf
  | .node l k d _ r => .node l k d (max (getHeight l) (getHeight r) + 1) r

/-- `rightRotate(y)`: `x = y.left; T2 = x.right; x.right = y; y.left = T2;`
then `updateHeight(y); updateHeight(x)`.  On a shape where `y.left` is
null the source would never be called; we return the input unchanged. -/
def rightRotate : Tree α → Tree α
  | .node (.node ll lk ld lh lr) k d h r =>
      updateHeight (.node ll lk ld lh (updateHeight (.node lr k d h r)))
  | t => t

/-- `leftRotate(x)`: mirror image of `rightRotate`. -/
def leftRotate : Tree α → Tree α
  | .node l k d h (.node rl rk rd rh rr) =>
      updateHeight (.node (updateHeight (.node l k d h rl)) rk rd rh rr)
  | t => t

/-- The id of the root node (`node.id`); never consulted on `null`. -/
def rootId : Tree α → Int
  | .leaf => 0
  | .node _ k _ _ _ => k

/-- The rebalancing tail of `insertNode`: the four cases LL, RR, LR, RL,
selected by the stored balance factor and the inserted id, in the order
the source checks them. -/
def rebalanceIns : Tree α → Int → Tree α
  | .leaf, _ => .leaf
  | .node l k d h r, id =>
    if 1 < getBalance (.node l k d h r) ∧ id < rootId l then
      rightRotate (.node l k d h r)
    else if getBalance (.node l k d h r) < -1 ∧ rootId r < id then
      leftRotate (.node l k d h r)
    else if 1 < getBalance (.node l k d h r) ∧ rootId l < id then
      rightRotate (.node (leftRotate l) k d h r)
    else if getBalance (.node l k d h r) < -1 ∧ id < rootId r then
      leftRotate (.node l k d h (rightRotate r))
    else .node l k d h r

/-- `insertNode`: BST insertion; on an existing id only `node.data` is
replaced and the function returns at once (no height update, no
rebalancing); otherwise height update and the four-case fixup run. -/
def insertNode : Tree α → Int → α → Tree α
  | .leaf, id, data => .node .leaf id data 1 .leaf
  | .node l k d h r, id, data =>
    if id < k then
      rebalanceIns (updateHeight (.node (insertNode l id data) k d h r)) id
    else if k < id then
      rebalanceIns (updateHeight (.node l k d h (insertNode r id data))) id
    else
      .node l k data h r

/-- `insert`: `this.root = insertNode(this.root, id, data)`. -/
def insert (t : Tree α) (id : Int) (data : α) : Tree α :=
  insertNode t id data

/-- `search`: iterative BST descent comparing `id` with `current.id`. -/
def search : Tree α → Int → Option α
  | .leaf, _ => none
  | .node l k d _ r, id =>
    if id = k then some d
    else if id < k then search l id
    else search r id

/-- `findMin`: follow `left` pointers to the leftmost node of a subtree;
`none` on the null tree (the source only calls it on non-null nodes). -/
def findMin : Tree α → Option (Int × α)
  | .leaf => none
  | .node l k d _ _ =>
    match findMin l with
    | none => some (k, d)
    | some p => some p

/-- The rebalancing tail of `deleteNode`: the four cases selected by the
stored balance factors of the node and the taller child, in source order
(LL, LR, RR, RL). -/
def rebalanceDel : Tree α → Tree α
  | .leaf => .leaf
  | .node l k d h r =>
    if 1 < getBalance (.node l k d h r) ∧ 0 ≤ getBalance l then
      rightRotate (.node l k d h r)
    else if 1 < getBalance (.node l k d h r) ∧ getBalance l < 0 then
      rightRotate (.node (leftRotate l) k d h r)
    else if getBalance (.node l k d h r) < -1 ∧ getBalance r ≤ 0 then
      leftRotate (.node l k d h r)
    else if getBalance (.node l k d h r) < -1 ∧ 0 < getBalance r then
      leftRotate (.node l k d h (rightRotate r))
    else .node l k d h r

/-- `null`-ness of a child pointer (`!node.left` / `!node.right`). -/
def isNull : Tree α → Bool
  | .leaf => true
  | .node _ _ _ _ _ => false

/-- `deleteNode`: BST deletion.  A node with at most one child is
replaced by that child (early return, no rebalancing at the removed
node); a node with two children receives the id/data of the in-order
successor (`findMin` of the right subtree) and that successor is deleted
from the right subtree; then height update and the delete fixup run. -/
def deleteNode : Tree α → Int → Tree α
  | .leaf, _ => .leaf
  | .node l k d h r, id =>
    if id < k then
      rebalanceDel (updateHeight (.node (deleteNode l id) k d h r))
    else if k < id then
      rebalanceDel (updateHeight (.node l k d h (deleteNode r id)))
    else
      if isNull l then r
      else if isNull r then l
      else
        match findMin r with
        | none => .leaf
        | some (mk, md) =>
          rebalanceDel (updateHeight (.node l mk md h (deleteNode r mk)))

/-- `inOrderTraversal`, reified as the list of `(id, data)` pairs the
callback receives, in visit order. -/
def inorder : Tree α → List (Int × α)
  | .leaf => []
  | .node l k d _ r => inorder l ++ (k, d) :: inorder r

/-- `size()`: number of callback invocations of a full in-order traversal. -/
def size (t : Tree α) : Nat := (inorder t).length

/-- `delete`: removes via `deleteNode` and reports whether the size
strictly decreased. -/
def delete (t : Tree α) (id : Int) : Tree α × Bool :=
  let t' := deleteNode t id
  (t', size t' < size t)

/-- The keys of the tree in in-order. -/
def keys (t : Tree α) : List Int := (inorder t).map Prod.fst

/-- `getTreeHeight()`: stored height of the root. -/
def getTreeHeight (t : Tree α) : Nat := getHeight t

/-- A cache operation issued against `ItemAVL`. -/
inductive Op (α : Type) where
  | ins (k : Int) (v : α)
  | del (k : Int)

/-- Apply one operation to the tree held in `this.root`. -/
def applyOp (t : Tree α) : Op α → Tree α
  | .ins k v => insert t k v
  | .del k => (delete t k).1

/-- The tree reached from the empty cache by a sequence of operations. -/
def applyOps (ops : List (Op α)) : Tree α := ops.foldl applyOp .leaf

/-! ### The sorted association-list model

Rotations preserve the in-order traversal, so `insertNode`, `deleteNode`
and `search` are fully described by their action on `inorder`. -/

/-- Insertion into a key-sorted association list (overwriting an equal key). -/
def insList (k : Int) (v : α) : List (Int × α) → List (Int × α)
  | [] => [(k, v)]
  | (k', v') :: xs =>
    if k < k' then (k, v) :: (k', v') :: xs
    else if k' < k then (k', v') :: insList k v xs
    else (k, v) :: xs

/-- Removal of the first pair with key `k` from an association list. -/
def delList (k : Int) : List (Int × α) → List (Int × α)
  | [] => []
  | (k', v') :: xs => if k = k' then xs else (k', v') :: delList k xs

/-- First-match lookup in an association list. -/
def lookupList (k : Int) : List (Int × α) → Option α
  | [] => none
  | (k', v') :: xs => if k = k' then some v' else lookupList k xs

/-- Key-sortedness of an association list (the BST ordering invariant,
phrased on the in-order listing). -/
def ordered (l : List (Int × α)) : Prop :=
  l.Pairwise (fun p q => p.1 < q.1)

theorem inorder_updateHeight (t : Tree α) : inorder (updateHeight t) = inorder t := by
  cases t <;> rfl

theorem keys_updateHeight (t : Tree α) : keys (updateHeight t) = keys t := by
  simp [keys, inorder_updateHeight]

theorem inorder_rightRotate (t : Tree α) : inorder (rightRotate t) = inorder t := by
  cases t with
  | leaf => rfl
  | node l k d h r =>
    cases l with
    | leaf => rfl
    | node ll lk ld lh lr =>
      simp [rightRotate, inorder, inorder_updateHeight, updateHeight, List.append_assoc]

theorem inorder_leftRotate (t : Tree α) : inorder (leftRotate t) = inorder t := by
  cases t with
  | leaf => rfl
  | node l k d h r =>
    cases r with
    | leaf => rfl
    | node rl rk rd rh rr =>
      simp [leftRotate, inorder, inorder_updateHeight, updateHeight, List.append_assoc]

theorem inorder_rebalanceIns (t : Tree α) (id : Int) :
    inorder (rebalanceIns t id) = inorder t := by
  cases t with
  | leaf => rfl
  | node l k d h r =>
    simp only [rebalanceIns]
    split_ifs <;>
      simp [inorder_rightRotate, inorder_leftRotate, inorder]

theorem inorder_rebalanceDel (t : Tree α) :
    inorder (rebalanceDel t) = inorder t := by
  cases t with
  | leaf => rfl
  | node l k d h r =>
    simp only [rebalanceDel]
    split_ifs <;>
      simp [inorder_rightRotate, inorder_leftRotate, inorder]

theorem insList_append_left (k : Int) (v : α) (xs ys : List (Int × α))
    (k0 : Int) (d : α) (hk : k < k0) :
    insList k v (xs ++ (k0, d) :: ys) = insList k v xs ++ (k0, d) :: ys := by
  induction xs with
  | nil => simp [insList, hk]
  | cons x xs ih =>
    obtain ⟨k', v'⟩ := x
    by_cases h1 : k < k'
    · simp [insList, h1]
    · by_cases h2 : k' < k
      · simp [insList, h1, h2, ih]
      · simp [insList, h1, h2]

theorem insList_append_right (k : Int) (v : α) (xs ys : List (Int × α))
    (hxs : ∀ p ∈ xs, p.1 < k) :
    insList k v (xs ++ ys) = xs ++ insList k v ys := by
  induction xs with
  | nil => rfl
  | cons x xs ih =>
    obtain ⟨k', v'⟩ := x
    have hk' : k' < k := hxs (k', v') (List.mem_cons_self _ _)
    have h1 : ¬ k < k' := by omega
    simp only [List.cons_append, insList, h1, if_false, if_pos hk']
    exact congrArg (List.cons (k', v')) (ih (fun p hp => hxs p (List.mem_cons_of_mem _ hp)))

theorem delList_not_mem (k : Int) (xs : List (Int × α))
    (hxs : ∀ p ∈ xs, p.1 ≠ k) : delList k xs = xs := by
  induction xs with
  | nil => rfl
  | cons x xs ih =>
    obtain ⟨k', v'⟩ := x
    have : k ≠ k' := fun h => hxs (k', v') (List.mem_cons_self _ _) h.symm
    simp only [delList, if_neg this]
    rw [ih (fun p hp => hxs p (List.mem_cons_of_mem _ hp))]

theorem delList_append_right (k : Int) (xs ys : List (Int × α))
    (hxs : ∀ p ∈ xs, p.1 ≠ k) :
    delList k (xs ++ ys) = xs ++ delList k ys := by
  induction xs with
  | nil => rfl
  | cons x xs ih =>
    obtain ⟨k', v'⟩ := x
    have : k ≠ k' := fun h => hxs (k', v') (List.mem_cons_self _ _) h.symm
    simp only [List.cons_append, delList, if_neg this]
    exact congrArg (List.cons (k', v')) (ih (fun p hp => hxs p (List.mem_cons_of_mem _ hp)))

theorem delList_append_left (k : Int) (xs ys : List (Int × α))
    (hmem : k ∈ xs.map Prod.fst) :
    delList k (xs ++ ys) = delList k xs ++ ys := by
  induction xs with
  | nil => simp at hmem
  | cons x xs ih =>
    obtain ⟨k', v'⟩ := x
    by_cases h : k = k'
    · simp [delList, h]
    · have h' : k ∈ xs.map Prod.fst := by
        simp only [List.map_cons, List.mem_cons] at hmem
        tauto
      simp [delList, h, ih h']

theorem delList_sublist (k : Int) (xs : List (Int × α)) :
    (delList k xs).Sublist xs := by
  induction xs with
  | nil => simp [delList]
  | cons x xs ih =>
    obtain ⟨k', v'⟩ := x
    by_cases h : k = k'
    · simp [delList, h, List.sublist_cons_self]
    · simpa [delList, h] using ih.cons₂ (k', v')

theorem lookupList_eq_none (k : Int) (xs : List (Int × α))
    (hxs : ∀ p ∈ xs, p.1 ≠ k) : lookupList k xs = none := by
  induction xs with
  | nil => rfl
  | cons x xs ih =>
    obtain ⟨k', v'⟩ := x
    have : k ≠ k' := fun h => hxs (k', v') (List.mem_cons_self _ _) h.symm
    simp only [lookupList, if_neg this]
    exact ih (fun p hp => hxs p (List.mem_cons_of_mem _ hp))

theorem lookupList_append_none (k : Int) (xs ys : List (Int × α))
    (h : lookupList k xs = none) :
    lookupList k (xs ++ ys) = lookupList k ys := by
  induction xs with
  | nil => rfl
  | cons x xs ih =>
    obtain ⟨k', v'⟩ := x
    by_cases hk : k = k'
    · simp [lookupList, hk] at h
    · simp only [lookupList, if_neg hk] at h
      simp only [List.cons_append, lookupList, if_neg hk]
      exact ih h

theorem lookupList_append_some (k : Int) (v : α) (xs ys : List (Int × α))
    (h : lookupList k xs = some v) :
    lookupList k (xs ++ ys) = some v := by
  induction xs with
  | nil => simp [lookupList] at h
  | cons x xs ih =>
    obtain ⟨k', v'⟩ := x
    by_cases hk : k = k'
    · simp_all [lookupList]
    · simp only [lookupList, if_neg hk] at h
      simp only [List.cons_append, lookupList, if_neg hk]
      exact ih h

theorem ordered_node_iff (l r : List (Int × α)) (k : Int) (d : α) :
    ordered (l ++ (k, d) :: r) ↔
      ordered l ∧ ordered r ∧ (∀ p ∈ l, p.1 < k) ∧ (∀ p ∈ r, k < p.1) := by
  simp only [ordered, List.pairwise_append, List.pairwise_cons, List.mem_cons]
  constructor
  · rintro ⟨h1, ⟨h2, h3⟩, h4⟩
    exact ⟨h1, h3, fun p hp => h4 p hp (k, d) (Or.inl rfl), h2⟩
  · rintro ⟨h1, h2, h3, h4⟩
    refine ⟨h1, ⟨h4, h2⟩, ?_⟩
    rintro a ha b (rfl | hb)
    · exact h3 a ha
    · exact lt_trans (h3 a ha) (h4 b hb)

theorem mem_insList (k : Int) (v : α) (xs : List (Int × α)) (p : Int × α)
    (hp : p ∈ insList k v xs) : p = (k, v) ∨ p ∈ xs := by
  induction xs with
  | nil => simpa [insList] using hp
  | cons x xs ih =>
    obtain ⟨k', v'⟩ := x
    by_cases h1 : k < k'
    · simp only [insList, if_pos h1, List.mem_cons] at hp ⊢
      tauto
    · by_cases h2 : k' < k
      · simp only [insList, if_neg h1, if_pos h2, List.mem_cons] at hp ⊢
        rcases hp with rfl | hp
        · tauto
        · rcases ih hp with h | h
          · exact Or.inl h
          · tauto
      · simp only [insList, if_neg h1, if_neg h2, List.mem_cons] at hp ⊢
        tauto

theorem ordered_insList (k : Int) (v : α) (xs : List (Int × α))
    (h : ordered xs) : ordered (insList k v xs) := by
  induction xs with
  | nil => simp [insList, ordered]
  | cons x xs ih =>
    obtain ⟨k', v'⟩ := x
    rw [ordered, List.pairwise_cons] at h
    obtain ⟨hlt, hxs⟩ := h
    by_cases h1 : k < k'
    · simp only [insList, if_pos h1]
      rw [ordered, List.pairwise_cons]
      refine ⟨?_, List.Pairwise.cons hlt hxs⟩
      intro p hp
      rcases List.mem_cons.mp hp with rfl | hp
      · exact h1
      · exact lt_trans h1 (hlt p hp)
    · by_cases h2 : k' < k
      · simp only [insList, if_neg h1, if_pos h2]
        rw [ordered, List.pairwise_cons]
        refine ⟨?_, ih hxs⟩
        intro p hp
        rcases mem_insList k v xs p hp with rfl | hp
        · exact h2
        · exact hlt p hp
      · have : k = k' := by omega
        subst this
        simp only [insList, if_neg h1, if_neg h2]
        exact List.Pairwise.cons hlt hxs

theorem inorder_insertNode (t : Tree α) (k : Int) (v : α)
    (hord : ordered (inorder t)) :
    inorder (insertNode t k v) = insList k v (inorder t) := by
  induction t with
  | leaf => rfl
  | node l k0 d h r ihl ihr =>
    rw [inorder, ordered_node_iff] at hord
    obtain ⟨hl, hr, hlk, hrk⟩ := hord
    by_cases h1 : k < k0
    · simp only [insertNode, if_pos h1]
      rw [inorder_rebalanceIns, inorder_updateHeight, inorder, ihl hl, inorder,
        insList_append_left _ _ _ _ _ _ h1]
    · by_cases h2 : k0 < k
      · simp only [insertNode, if_neg h1, if_pos h2]
        rw [inorder_rebalanceIns, inorder_updateHeight, inorder, ihr hr, inorder,
          insList_append_right _ _ _ _ (fun p hp => lt_trans (hlk p hp) h2)]
        simp only [insList, if_neg h1, if_pos h2]
      · have : k = k0 := by omega
        subst this
        simp only [insertNode, if_neg h1, if_neg h2, inorder]
        rw [insList_append_right _ _ _ _ hlk]
        simp [insList]

theorem search_eq_lookupList (t : Tree α) (k : Int)
    (hord : ordered (inorder t)) :
    search t k = lookupList k (inorder t) := by
  induction t with
  | leaf => rfl
  | node l k0 d h r ihl ihr =>
    rw [inorder, ordered_node_iff] at hord
    obtain ⟨hl, hr, hlk, hrk⟩ := hord
    simp only [inorder]
    by_cases h1 : k = k0
    · subst h1
      simp only [search, if_pos rfl]
      rw [lookupList_append_none _ _ _ (lookupList_eq_none _ _
        (fun p hp => ne_of_lt (hlk p hp)))]
      simp [lookupList]
    · by_cases h2 : k < k0
      · simp only [search, if_neg h1, if_pos h2]
        rw [ihl hl]
        cases hcase : lookupList k (inorder l) with
        | none =>
          rw [lookupList_append_none _ _ _ hcase]
          simp only [lookupList, if_neg h1]
          exact (lookupList_eq_none _ _
            (fun p hp => ne_of_gt (lt_trans h2 (hrk p hp)))).symm
        | some v => exact (lookupList_append_some _ _ _ _ hcase).symm
      · have h3 : k0 < k := by omega
        simp only [search, if_neg h1, if_neg h2]
        rw [ihr hr,
          lookupList_append_none _ _ _ (lookupList_eq_none _ _
            (fun p hp => ne_of_lt (lt_trans (hlk p hp) h3)))]
        simp [lookupList, h1]

theorem findMin_eq_head (t : Tree α) : findMin t = (inorder t).head? := by
  induction t with
  | leaf => rfl
  | node l k d h r ihl ihr =>
    rw [findMin, ihl, inorder]
    cases inorder l <;> simp

theorem inorder_ne_nil (l r : Tree α) (k : Int) (d : α) (h : Nat) :
    inorder (Tree.node l k d h r) ≠ [] := by
  simp [inorder]

theorem inorder_deleteNode (t : Tree α) (k : Int)
    (hord : ordered (inorder t)) :
    inorder (deleteNode t k) = delList k (inorder t) := by
  induction t generalizing k with
  | leaf => rfl
  | node l k0 d h r ihl ihr =>
    rw [inorder, ordered_node_iff] at hord
    obtain ⟨hl, hr, hlk, hrk⟩ := hord
    by_cases h1 : k < k0
    · simp only [deleteNode, if_pos h1]
      rw [inorder_rebalanceDel, inorder_updateHeight, inorder, ihl k hl, inorder]
      by_cases hmem : k ∈ (inorder l).map Prod.fst
      · rw [delList_append_left _ _ _ hmem]
      · have hne : ∀ p ∈ inorder l, p.1 ≠ k := by
          intro p hp he
          exact hmem (he ▸ List.mem_map_of_mem Prod.fst hp)
        rw [delList_not_mem _ _ hne, delList_append_right _ _ _ hne]
        have : ∀ p ∈ (k0, d) :: inorder r, p.1 ≠ k := by
          intro p hp
          rcases List.mem_cons.mp hp with rfl | hp
          · exact fun he => absurd he.symm (ne_of_lt h1)
          · exact fun he => absurd (he ▸ hrk p hp) (by omega)
        rw [delList_not_mem _ _ this]
    · by_cases h2 : k0 < k
      · simp only [deleteNode, if_neg h1, if_pos h2]
        rw [inorder_rebalanceDel, inorder_updateHeight, inorder, ihr k hr, inorder,
          delList_append_right _ _ _
            (fun p hp => ne_of_lt (lt_trans (hlk p hp) h2))]
        have hkk : ¬ k = k0 := fun hh => absurd hh.symm (ne_of_lt h2)
        simp [delList, hkk]
      · have hk : k = k0 := by omega
        subst hk
        cases l with
        | leaf =>
          have hred : deleteNode (Tree.node Tree.leaf k d h r) k = r := by
            simp [deleteNode, h1, isNull]
          rw [hred, show inorder (Tree.node Tree.leaf k d h r)
              = (k, d) :: inorder r from rfl]
          simp [delList]
        | node ll lk ld lh lr =>
          cases r with
          | leaf =>
            have hred : deleteNode (Tree.node (Tree.node ll lk ld lh lr) k d h Tree.leaf) k
                = Tree.node ll lk ld lh lr := by
              simp [deleteNode, h1, isNull]
            rw [hred, show inorder (Tree.node (Tree.node ll lk ld lh lr) k d h Tree.leaf)
                = inorder (Tree.node ll lk ld lh lr) ++ [(k, d)] from rfl,
              delList_append_right _ _ _ (fun p hp => ne_of_lt (hlk p hp))]
            simp [delList]
          | node rl rk rd rh rr =>
            have hfm : findMin (Tree.node rl rk rd rh rr) =
                (inorder (Tree.node rl rk rd rh rr)).head? := findMin_eq_head _
            cases hio : inorder (Tree.node rl rk rd rh rr) with
            | nil => exact absurd hio (inorder_ne_nil _ _ _ _ _)
            | cons p rest =>
              obtain ⟨mk, md⟩ := p
              rw [hio] at hfm
              simp only [List.head?] at hfm
              have hred : deleteNode (Tree.node (Tree.node ll lk ld lh lr) k d h
                    (Tree.node rl rk rd rh rr)) k
                  = rebalanceDel (updateHeight (Tree.node (Tree.node ll lk ld lh lr) mk md h
                      (deleteNode (Tree.node rl rk rd rh rr) mk))) := by
                simp [deleteNode, h1, isNull, hfm]
              rw [hred, inorder_rebalanceDel, inorder_updateHeight,
                show inorder (Tree.node (Tree.node ll lk ld lh lr) mk md h
                      (deleteNode (Tree.node rl rk rd rh rr) mk))
                    = inorder (Tree.node ll lk ld lh lr) ++ (mk, md) ::
                        inorder (deleteNode (Tree.node rl rk rd rh rr) mk) from rfl,
                ihr mk hr, hio,
                show inorder (Tree.node (Tree.node ll lk ld lh lr) k d h
                      (Tree.node rl rk rd rh rr))
                    = inorder (Tree.node ll lk ld lh lr) ++ (k, d) ::
                        inorder (Tree.node rl rk rd rh rr) from rfl,
                delList_append_right _ _ _ (fun p hp => ne_of_lt (hlk p hp)), hio]
              simp [delList]

theorem ordered_delList (k : Int) (xs : List (Int × α))
    (h : ordered xs) : ordered (delList k xs) :=
  List.Pairwise.sublist (delList_sublist k xs) h

theorem ordered_applyOp (t : Tree α) (op : Op α)
    (h : ordered (inorder t)) : ordered (inorder (applyOp t op)) := by
  cases op with
  | ins k v =>
    rw [applyOp, insert, inorder_insertNode _ _ _ h]
    exact ordered_insList _ _ _ h
  | del k =>
    rw [applyOp, delete, inorder_deleteNode _ _ h]
    exact ordered_delList _ _ h

theorem ordered_applyOps (ops : List (Op α)) :
    ordered (inorder (applyOps ops)) := by
  rw [applyOps]
  have H : ∀ t : Tree α, ordered (inorder t) →
      ordered (inorder (ops.foldl applyOp t)) := by
    induction ops with
    | nil => exact fun t h => h
    | cons op ops ih =>
      intro t h
      exact ih _ (ordered_applyOp t op h)
  exact H .leaf (by simp [inorder, ordered])

/-! ### The AVL shape invariant

`Avl t` states, for every node, that the stored `height` field equals
`1 + max` of the children's stored heights and that the two child
heights differ by at most one — exactly the invariant the specification
requires after every operation. -/

def Avl : Tree α → Prop
  | .leaf => True
  | .node l _ _ h r =>
      Avl l ∧ Avl r ∧ h = max (getHeight l) (getHeight r) + 1 ∧
      getHeight l ≤ getHeight r + 1 ∧ getHeight r ≤ getHeight l + 1

/-- The facts recorded by `insertNode` growth: when an insertion of key
`k` increased the subtree height, either the subtree is a fresh single
node, or the inserted key lies on the taller side of its root. -/
def growthOk (t : Tree α) (k : Int) : Prop :=
  (getBalance t = 0 → getHeight t = 1) ∧
  (0 < getBalance t → k < rootId t) ∧
  (getBalance t < 0 → rootId t < k)

theorem getHeight_node (l : Tree α) (k : Int) (d : α) (h : Nat) (r : Tree α) :
    getHeight (Tree.node l k d h r) = h := rfl

theorem getHeight_leaf : getHeight (Tree.leaf : Tree α) = 0 := rfl

theorem getBalance_node (l : Tree α) (k : Int) (d : α) (h : Nat) (r : Tree α) :
    getBalance (Tree.node l k d h r) = (getHeight l : Int) - getHeight r := rfl

theorem rootId_node (l : Tree α) (k : Int) (d : α) (h : Nat) (r : Tree α) :
    rootId (Tree.node l k d h r) = k := rfl

theorem exists_node_of_height_pos (t : Tree α) (h : 0 < getHeight t) :
    ∃ a kk dd hh b, t = Tree.node a kk dd hh b := by
  cases t with
  | leaf => simp [getHeight] at h
  | node a kk dd hh b => exact ⟨a, kk, dd, hh, b, rfl⟩

theorem rebalanceIns_noop (l r : Tree α) (k0 k : Int) (d : α) (H : Nat)
    (h1 : (getHeight l : Int) - getHeight r ≤ 1)
    (h2 : (getHeight r : Int) - getHeight l ≤ 1) :
    rebalanceIns (Tree.node l k0 d H r) k = Tree.node l k0 d H r := by
  have hb : getBalance (Tree.node l k0 d H r) = (getHeight l : Int) - getHeight r := rfl
  have c1 : ¬(1 < getBalance (Tree.node l k0 d H r) ∧ k < rootId l) := by
    rw [hb]; rintro ⟨hc, -⟩; omega
  have c2 : ¬(getBalance (Tree.node l k0 d H r) < -1 ∧ rootId r < k) := by
    rw [hb]; rintro ⟨hc, -⟩; omega
  have c3 : ¬(1 < getBalance (Tree.node l k0 d H r) ∧ rootId l < k) := by
    rw [hb]; rintro ⟨hc, -⟩; omega
  have c4 : ¬(getBalance (Tree.node l k0 d H r) < -1 ∧ k < rootId r) := by
    rw [hb]; rintro ⟨hc, -⟩; omega
  simp only [rebalanceIns]
  rw [if_neg c1, if_neg c2, if_neg c3, if_neg c4]

theorem rebalanceDel_noop (l r : Tree α) (k0 : Int) (d : α) (H : Nat)
    (h1 : (getHeight l : Int) - getHeight r ≤ 1)
    (h2 : (getHeight r : Int) - getHeight l ≤ 1) :
    rebalanceDel (Tree.node l k0 d H r) = Tree.node l k0 d H r := by
  have hb : getBalance (Tree.node l k0 d H r) = (getHeight l : Int) - getHeight r := rfl
  have c1 : ¬(1 < getBalance (Tree.node l k0 d H r) ∧ 0 ≤ getBalance l) := by
    rw [hb]; rintro ⟨hc, -⟩; omega
  have c2 : ¬(1 < getBalance (Tree.node l k0 d H r) ∧ getBalance l < 0) := by
    rw [hb]; rintro ⟨hc, -⟩; omega
  have c3 : ¬(getBalance (Tree.node l k0 d H r) < -1 ∧ getBalance r ≤ 0) := by
    rw [hb]; rintro ⟨hc, -⟩; omega
  have c4 : ¬(getBalance (Tree.node l k0 d H r) < -1 ∧ 0 < getBalance r) := by
    rw [hb]; rintro ⟨hc, -⟩; omega
  simp only [rebalanceDel]
  rw [if_neg c1, if_neg c2, if_neg c3, if_neg c4]

theorem ins_fix_left (l' r : Tree α) (k0 k : Int) (d : α) (h0 hl0 : Nat)
    (hal : Avl l') (har : Avl r) (hk : k < k0)
    (hpre1 : hl0 ≤ getHeight r + 1) (hpre2 : getHeight r ≤ hl0 + 1)
    (hgrow : getHeight l' = hl0 ∨ getHeight l' = hl0 + 1)
    (hgok : getHeight l' = hl0 + 1 → growthOk l' k) :
    Avl (rebalanceIns (updateHeight (Tree.node l' k0 d h0 r)) k) ∧
    (getHeight (rebalanceIns (updateHeight (Tree.node l' k0 d h0 r)) k)
        = max hl0 (getHeight r) + 1 ∨
      getHeight (rebalanceIns (updateHeight (Tree.node l' k0 d h0 r)) k)
        = max hl0 (getHeight r) + 2) ∧
    (getHeight (rebalanceIns (updateHeight (Tree.node l' k0 d h0 r)) k)
        = max hl0 (getHeight r) + 2 →
      growthOk (rebalanceIns (updateHeight (Tree.node l' k0 d h0 r)) k) k) := by
  have hUH : updateHeight (Tree.node l' k0 d h0 r)
      = Tree.node l' k0 d (max (getHeight l') (getHeight r) + 1) r := rfl
  rw [hUH]
  by_cases hclose : (getHeight l' : Int) - getHeight r ≤ 1
  · have hge : (getHeight r : Int) - getHeight l' ≤ 1 := by
      rcases hgrow with h | h <;> omega
    rw [rebalanceIns_noop _ _ _ _ _ _ hclose hge]
    refine ⟨⟨hal, har, rfl, by omega, by omega⟩, ?_, ?_⟩
    · simp only [getHeight_node]
      rcases hgrow with h | h <;> omega
    · intro hgr
      simp only [getHeight_node] at hgr
      refine ⟨?_, ?_, ?_⟩
      · intro hb0
        exfalso
        rw [getBalance_node] at hb0
        rcases hgrow with h | h <;> omega
      · intro _
        rw [rootId_node]; exact hk
      · intro hblt
        exfalso
        rw [getBalance_node] at hblt
        rcases hgrow with h | h <;> omega
  · have hl'2 : getHeight l' = getHeight r + 2 := by rcases hgrow with h | h <;> omega
    have hl'v : getHeight l' = hl0 + 1 := by omega
    have hl0v : hl0 = getHeight r + 1 := by omega
    obtain ⟨hg0, hgpos, hgneg⟩ := hgok hl'v
    obtain ⟨a, lk, ld, lhA, b, rfl⟩ := exists_node_of_height_pos l' (by omega)
    obtain ⟨hAa, hAb, hhA, hab1, hab2⟩ := hal
    simp only [getHeight_node] at hl'2 hl'v hl0v
    have hbal2 : getBalance (Tree.node (Tree.node a lk ld lhA b) k0 d
        (max (getHeight (Tree.node a lk ld lhA b)) (getHeight r) + 1) r)
        = (lhA : Int) - getHeight r := rfl
    have hbalA : getBalance (Tree.node a lk ld lhA b)
        = (getHeight a : Int) - getHeight b := rfl
    have hne0 : getHeight a ≠ getHeight b := by
      intro heq
      have h0' : getBalance (Tree.node a lk ld lhA b) = 0 := by rw [hbalA]; omega
      have := hg0 h0'
      simp only [getHeight_node] at this
      omega
    rcases Nat.lt_or_ge (getHeight b) (getHeight a) with hpos | hge
    · -- LL case: single right rotation
      have hklk : k < lk := hgpos (by rw [hbalA]; omega)
      simp only [rebalanceIns]
      rw [if_pos ⟨by rw [hbal2]; omega, by rw [rootId_node]; exact hklk⟩]
      have hrr : rightRotate (Tree.node (Tree.node a lk ld lhA b) k0 d
            (max (getHeight (Tree.node a lk ld lhA b)) (getHeight r) + 1) r)
          = Tree.node a lk ld
              (max (getHeight a) (max (getHeight b) (getHeight r) + 1) + 1)
              (Tree.node b k0 d (max (getHeight b) (getHeight r) + 1) r) := rfl
      rw [hrr]
      refine ⟨⟨hAa, ⟨hAb, har, rfl, by (try simp only [getHeight_node]); omega,
          by (try simp only [getHeight_node]); omega⟩, rfl,
          by (try simp only [getHeight_node]); omega, by (try simp only [getHeight_node]); omega⟩, ?_, ?_⟩
      · left
        simp only [getHeight_node]
        omega
      · intro hgr
        exfalso
        simp only [getHeight_node] at hgr
        omega
    · -- LR case: left-rotate the child, then right rotation
      have hlt : getHeight a < getHeight b := by omega
      have hlkk : lk < k := hgneg (by rw [hbalA]; omega)
      have hbpos : 0 < getHeight b := by omega
      obtain ⟨b1, bk, bd, hbB, b2, rfl⟩ := exists_node_of_height_pos b hbpos
      obtain ⟨hB1, hB2, hhB, hb12, hb21⟩ := hAb
      simp only [getHeight_node] at hhA hlt hl'2 hl'v hl0v hne0 hab1 hab2
      simp only [rebalanceIns]
      rw [if_neg (by rintro ⟨-, hc⟩; rw [rootId_node] at hc; omega),
        if_neg (by rintro ⟨hc, -⟩; rw [hbal2] at hc; omega),
        if_pos ⟨by rw [hbal2]; omega,
          by rw [rootId_node]; omega⟩]
      have hlr : rightRotate (Tree.node
            (leftRotate (Tree.node a lk ld lhA (Tree.node b1 bk bd hbB b2))) k0 d
            (max (getHeight (Tree.node a lk ld lhA (Tree.node b1 bk bd hbB b2)))
              (getHeight r) + 1) r)
          = Tree.node (Tree.node a lk ld (max (getHeight a) (getHeight b1) + 1) b1)
              bk bd
              (max (max (getHeight a) (getHeight b1) + 1)
                (max (getHeight b2) (getHeight r) + 1) + 1)
              (Tree.node b2 k0 d (max (getHeight b2) (getHeight r) + 1) r) := rfl
      rw [hlr]
      refine ⟨⟨⟨hAa, hB1, rfl, by (try simp only [getHeight_node]); omega,
          by (try simp only [getHeight_node]); omega⟩,
          ⟨hB2, har, rfl, by (try simp only [getHeight_node]); omega,
            by (try simp only [getHeight_node]); omega⟩, rfl,
          by (try simp only [getHeight_node]); omega, by (try simp only [getHeight_node]); omega⟩, ?_, ?_⟩
      · left
        simp only [getHeight_node]
        omega
      · intro hgr
        exfalso
        simp only [getHeight_node] at hgr
        omega

theorem ins_fix_right (l r' : Tree α) (k0 k : Int) (d : α) (h0 hr0 : Nat)
    (hal : Avl l) (har : Avl r') (hk : k0 < k)
    (hpre1 : getHeight l ≤ hr0 + 1) (hpre2 : hr0 ≤ getHeight l + 1)
    (hgrow : getHeight r' = hr0 ∨ getHeight r' = hr0 + 1)
    (hgok : getHeight r' = hr0 + 1 → growthOk r' k) :
    Avl (rebalanceIns (updateHeight (Tree.node l k0 d h0 r')) k) ∧
    (getHeight (rebalanceIns (updateHeight (Tree.node l k0 d h0 r')) k)
        = max (getHeight l) hr0 + 1 ∨
      getHeight (rebalanceIns (updateHeight (Tree.node l k0 d h0 r')) k)
        = max (getHeight l) hr0 + 2) ∧
    (getHeight (rebalanceIns (updateHeight (Tree.node l k0 d h0 r')) k)
        = max (getHeight l) hr0 + 2 →
      growthOk (rebalanceIns (updateHeight (Tree.node l k0 d h0 r')) k) k) := by
  have hUH : updateHeight (Tree.node l k0 d h0 r')
      = Tree.node l k0 d (max (getHeight l) (getHeight r') + 1) r' := rfl
  rw [hUH]
  by_cases hclose : (getHeight r' : Int) - getHeight l ≤ 1
  · have hge : (getHeight l : Int) - getHeight r' ≤ 1 := by
      rcases hgrow with h | h <;> omega
    rw [rebalanceIns_noop _ _ _ _ _ _ hge hclose]
    refine ⟨⟨hal, har, rfl, by omega, by omega⟩, ?_, ?_⟩
    · simp only [getHeight_node]
      rcases hgrow with h | h <;> omega
    · intro hgr
      simp only [getHeight_node] at hgr
      refine ⟨?_, ?_, ?_⟩
      · intro hb0
        exfalso
        rw [getBalance_node] at hb0
        rcases hgrow with h | h <;> omega
      · intro hbgt
        exfalso
        rw [getBalance_node] at hbgt
        rcases hgrow with h | h <;> omega
      · intro _
        rw [rootId_node]; exact hk
  · have hr'2 : getHeight r' = getHeight l + 2 := by rcases hgrow with h | h <;> omega
    have hr'v : getHeight r' = hr0 + 1 := by omega
    have hr0v : hr0 = getHeight l + 1 := by omega
    obtain ⟨hg0, hgpos, hgneg⟩ := hgok hr'v
    obtain ⟨c, rk, rd, rhA, e, rfl⟩ := exists_node_of_height_pos r' (by omega)
    obtain ⟨hAc, hAe, hhA, hce1, hce2⟩ := har
    simp only [getHeight_node] at hr'2 hr'v hr0v
    have hbal2 : getBalance (Tree.node l k0 d
        (max (getHeight l) (getHeight (Tree.node c rk rd rhA e)) + 1)
        (Tree.node c rk rd rhA e))
        = (getHeight l : Int) - rhA := rfl
    have hbalA : getBalance (Tree.node c rk rd rhA e)
        = (getHeight c : Int) - getHeight e := rfl
    have hne0 : getHeight c ≠ getHeight e := by
      intro heq
      have h0' : getBalance (Tree.node c rk rd rhA e) = 0 := by rw [hbalA]; omega
      have := hg0 h0'
      simp only [getHeight_node] at this
      omega
    rcases Nat.lt_or_ge (getHeight c) (getHeight e) with hneg | hge
    · -- RR case: single left rotation
      have hrkk : rk < k := hgneg (by rw [hbalA]; omega)
      simp only [rebalanceIns]
      rw [if_neg (by rintro ⟨hc', -⟩; rw [hbal2] at hc'; omega),
        if_pos ⟨by rw [hbal2]; omega, by rw [rootId_node]; exact hrkk⟩]
      have hlr : leftRotate (Tree.node l k0 d
            (max (getHeight l) (getHeight (Tree.node c rk rd rhA e)) + 1)
            (Tree.node c rk rd rhA e))
          = Tree.node (Tree.node l k0 d (max (getHeight l) (getHeight c) + 1) c)
              rk rd
              (max (max (getHeight l) (getHeight c) + 1) (getHeight e) + 1) e := rfl
      rw [hlr]
      refine ⟨⟨⟨hal, hAc, rfl, by (try simp only [getHeight_node]); omega,
          by (try simp only [getHeight_node]); omega⟩, hAe, rfl,
          by (try simp only [getHeight_node]); omega,
          by (try simp only [getHeight_node]); omega⟩, ?_, ?_⟩
      · left
        simp only [getHeight_node]
        omega
      · intro hgr
        exfalso
        simp only [getHeight_node] at hgr
        omega
    · -- RL case: right-rotate the child, then left rotation
      have hlt : getHeight e < getHeight c := by omega
      have hkrk : k < rk := hgpos (by rw [hbalA]; omega)
      have hcpos : 0 < getHeight c := by omega
      obtain ⟨c1, ck, cd, hcC, c2, rfl⟩ := exists_node_of_height_pos c hcpos
      obtain ⟨hC1, hC2, hhC, hc12, hc21⟩ := hAc
      simp only [getHeight_node] at hhA hlt hr'2 hr'v hr0v hne0 hce1 hce2
      simp only [rebalanceIns]
      rw [if_neg (by rintro ⟨hc', -⟩; rw [hbal2] at hc'; omega),
        if_neg (by rintro ⟨-, hc'⟩; rw [rootId_node] at hc'; omega),
        if_neg (by rintro ⟨hc', -⟩; rw [hbal2] at hc'; omega),
        if_pos ⟨by rw [hbal2]; omega, by rw [rootId_node]; omega⟩]
      have hrl : leftRotate (Tree.node l k0 d
            (max (getHeight l)
              (getHeight (Tree.node (Tree.node c1 ck cd hcC c2) rk rd rhA e)) + 1)
            (rightRotate (Tree.node (Tree.node c1 ck cd hcC c2) rk rd rhA e)))
          = Tree.node (Tree.node l k0 d (max (getHeight l) (getHeight c1) + 1) c1)
              ck cd
              (max (max (getHeight l) (getHeight c1) + 1)
                (max (getHeight c2) (getHeight e) + 1) + 1)
              (Tree.node c2 rk rd (max (getHeight c2) (getHeight e) + 1) e) := rfl
      rw [hrl]
      refine ⟨⟨⟨hal, hC1, rfl, by (try simp only [getHeight_node]); omega,
          by (try simp only [getHeight_node]); omega⟩,
          ⟨hC2, hAe, rfl, by (try simp only [getHeight_node]); omega,
            by (try simp only [getHeight_node]); omega⟩, rfl,
          by (try simp only [getHeight_node]); omega,
          by (try simp only [getHeight_node]); omega⟩, ?_, ?_⟩
      · left
        simp only [getHeight_node]
        omega
      · intro hgr
        exfalso
        simp only [getHeight_node] at hgr
        omega

/-- After `insertNode` on an AVL-invariant tree, the invariant still
holds, the stored root height grows by at most one, and on growth the
inserted key sits on the taller side of the root. -/
theorem insertNode_avl (t : Tree α) (k : Int) (v : α) (ht : Avl t) :
    Avl (insertNode t k v) ∧
    (getHeight (insertNode t k v) = getHeight t ∨
      getHeight (insertNode t k v) = getHeight t + 1) ∧
    (getHeight (insertNode t k v) = getHeight t + 1 →
      growthOk (insertNode t k v) k) := by
  induction t with
  | leaf =>
    refine ⟨⟨trivial, trivial, rfl, by omega, by omega⟩, Or.inr rfl,
      fun _ => ⟨fun _ => rfl, ?_, ?_⟩⟩
    · intro hp
      exfalso
      simp only [insertNode, getBalance_node] at hp
      simp [getHeight] at hp
    · intro hp
      exfalso
      simp only [insertNode, getBalance_node] at hp
      simp [getHeight] at hp
  | node l k0 d h r ihl ihr =>
    obtain ⟨hal, har, hh, hb1, hb2⟩ := ht
    by_cases h1 : k < k0
    · simp only [insertNode, if_pos h1]
      obtain ⟨ihA, ihH, ihG⟩ := ihl hal
      obtain ⟨hA, hH, hG⟩ :=
        ins_fix_left (insertNode l k v) r k0 k d h (getHeight l)
          ihA har h1 hb1 hb2 ihH ihG
      refine ⟨hA, ?_, ?_⟩
      · simp only [getHeight_node]
        rcases hH with h' | h' <;> omega
      · intro hgr
        apply hG
        simp only [getHeight_node] at hgr
        omega
    · by_cases h2 : k0 < k
      · simp only [insertNode, if_neg h1, if_pos h2]
        obtain ⟨ihA, ihH, ihG⟩ := ihr har
        obtain ⟨hA, hH, hG⟩ :=
          ins_fix_right l (insertNode r k v) k0 k d h (getHeight r)
            hal ihA h2 hb1 hb2 ihH ihG
        refine ⟨hA, ?_, ?_⟩
        · simp only [getHeight_node]
          rcases hH with h' | h' <;> omega
        · intro hgr
          apply hG
          simp only [getHeight_node] at hgr
          omega
      · simp only [insertNode, if_neg h1, if_neg h2]
        refine ⟨⟨hal, har, hh, hb1, hb2⟩, Or.inl rfl, ?_⟩
        intro hgr
        exfalso
        simp only [getHeight_node] at hgr
        omega

theorem del_fix_right (l r' : Tree α) (k0 : Int) (d : α) (h0 hr0 : Nat)
    (hal : Avl l) (har : Avl r')
    (hpre1 : getHeight l ≤ hr0 + 1) (hpre2 : hr0 ≤ getHeight l + 1)
    (hshrink : getHeight r' = hr0 ∨ getHeight r' + 1 = hr0) :
    Avl (rebalanceDel (updateHeight (Tree.node l k0 d h0 r'))) ∧
    (getHeight (rebalanceDel (updateHeight (Tree.node l k0 d h0 r')))
        = max (getHeight l) hr0 + 1 ∨
      getHeight (rebalanceDel (updateHeight (Tree.node l k0 d h0 r'))) + 1
        = max (getHeight l) hr0 + 1) := by
  have hUH : updateHeight (Tree.node l k0 d h0 r')
      = Tree.node l k0 d (max (getHeight l) (getHeight r') + 1) r' := rfl
  rw [hUH]
  by_cases hclose : (getHeight l : Int) - getHeight r' ≤ 1
  · have hge : (getHeight r' : Int) - getHeight l ≤ 1 := by
      rcases hshrink with h | h <;> omega
    rw [rebalanceDel_noop _ _ _ _ _ hclose hge]
    refine ⟨⟨hal, har, rfl, by omega, by omega⟩, ?_⟩
    simp only [getHeight_node]
    rcases hshrink with h | h <;> omega
  · have hl2 : getHeight l = getHeight r' + 2 := by rcases hshrink with h | h <;> omega
    have hr0v : hr0 = getHeight r' + 1 := by rcases hshrink with h | h <;> omega
    obtain ⟨a, lk, ld, lhA, b, rfl⟩ := exists_node_of_height_pos l (by omega)
    obtain ⟨hAa, hAb, hhA, hab1, hab2⟩ := hal
    simp only [getHeight_node] at hl2 hpre1 hpre2
    have hbal2 : getBalance (Tree.node (Tree.node a lk ld lhA b) k0 d
        (max (getHeight (Tree.node a lk ld lhA b)) (getHeight r') + 1) r')
        = (lhA : Int) - getHeight r' := rfl
    have hbalA : getBalance (Tree.node a lk ld lhA b)
        = (getHeight a : Int) - getHeight b := rfl
    rcases Int.le_or_lt 0 (getBalance (Tree.node a lk ld lhA b)) with hbge | hblt
    · -- LL case of the delete fixup: single right rotation
      rw [hbalA] at hbge
      simp only [rebalanceDel]
      rw [if_pos ⟨by rw [hbal2]; omega, by rw [hbalA]; (try simp only [getHeight_node]); omega⟩]
      have hrr : rightRotate (Tree.node (Tree.node a lk ld lhA b) k0 d
            (max (getHeight (Tree.node a lk ld lhA b)) (getHeight r') + 1) r')
          = Tree.node a lk ld
              (max (getHeight a) (max (getHeight b) (getHeight r') + 1) + 1)
              (Tree.node b k0 d (max (getHeight b) (getHeight r') + 1) r') := rfl
      rw [hrr]
      refine ⟨⟨hAa, ⟨hAb, har, rfl, by (try simp only [getHeight_node]); omega,
          by (try simp only [getHeight_node]); omega⟩, rfl,
          by (try simp only [getHeight_node]); omega,
          by (try simp only [getHeight_node]); omega⟩, ?_⟩
      simp only [getHeight_node]
      omega
    · -- LR case of the delete fixup
      rw [hbalA] at hblt
      have hbpos : 0 < getHeight b := by omega
      obtain ⟨b1, bk, bd, hbB, b2, rfl⟩ := exists_node_of_height_pos b hbpos
      obtain ⟨hB1, hB2, hhB, hb12, hb21⟩ := hAb
      simp only [getHeight_node] at hhA hab1 hab2 hl2 hblt
      simp only [rebalanceDel]
      rw [if_neg (by rintro ⟨-, hc⟩; rw [hbalA] at hc; (try simp only [getHeight_node] at hc); omega),
        if_pos ⟨by rw [hbal2]; omega, by rw [hbalA]; (try simp only [getHeight_node]); omega⟩]
      have hlr : rightRotate (Tree.node
            (leftRotate (Tree.node a lk ld lhA (Tree.node b1 bk bd hbB b2))) k0 d
            (max (getHeight (Tree.node a lk ld lhA (Tree.node b1 bk bd hbB b2)))
              (getHeight r') + 1) r')
          = Tree.node (Tree.node a lk ld (max (getHeight a) (getHeight b1) + 1) b1)
              bk bd
              (max (max (getHeight a) (getHeight b1) + 1)
                (max (getHeight b2) (getHeight r') + 1) + 1)
              (Tree.node b2 k0 d (max (getHeight b2) (getHeight r') + 1) r') := rfl
      rw [hlr]
      refine ⟨⟨⟨hAa, hB1, rfl, by (try simp only [getHeight_node]); omega,
          by (try simp only [getHeight_node]); omega⟩,
          ⟨hB2, har, rfl, by (try simp only [getHeight_node]); omega,
            by (try simp only [getHeight_node]); omega⟩, rfl,
          by (try simp only [getHeight_node]); omega,
          by (try simp only [getHeight_node]); omega⟩, ?_⟩
      simp only [getHeight_node]
      omega

theorem del_fix_left (l' r : Tree α) (k0 : Int) (d : α) (h0 hl0 : Nat)
    (hal : Avl l') (har : Avl r)
    (hpre1 : hl0 ≤ getHeight r + 1) (hpre2 : getHeight r ≤ hl0 + 1)
    (hshrink : getHeight l' = hl0 ∨ getHeight l' + 1 = hl0) :
    Avl (rebalanceDel (updateHeight (Tree.node l' k0 d h0 r))) ∧
    (getHeight (rebalanceDel (updateHeight (Tree.node l' k0 d h0 r)))
        = max hl0 (getHeight r) + 1 ∨
      getHeight (rebalanceDel (updateHeight (Tree.node l' k0 d h0 r))) + 1
        = max hl0 (getHeight r) + 1) := by
  have hUH : updateHeight (Tree.node l' k0 d h0 r)
      = Tree.node l' k0 d (max (getHeight l') (getHeight r) + 1) r := rfl
  rw [hUH]
  by_cases hclose : (getHeight r : Int) - getHeight l' ≤ 1
  · have hge : (getHeight l' : Int) - getHeight r ≤ 1 := by
      rcases hshrink with h | h <;> omega
    rw [rebalanceDel_noop _ _ _ _ _ hge hclose]
    refine ⟨⟨hal, har, rfl, by omega, by omega⟩, ?_⟩
    simp only [getHeight_node]
    rcases hshrink with h | h <;> omega
  · have hr2 : getHeight r = getHeight l' + 2 := by rcases hshrink with h | h <;> omega
    have hl0v : hl0 = getHeight l' + 1 := by rcases hshrink with h | h <;> omega
    obtain ⟨c, rk, rd, rhA, e, rfl⟩ := exists_node_of_height_pos r (by omega)
    obtain ⟨hAc, hAe, hhA, hce1, hce2⟩ := har
    simp only [getHeight_node] at hr2 hpre1 hpre2
    have hbal2 : getBalance (Tree.node l' k0 d
        (max (getHeight l') (getHeight (Tree.node c rk rd rhA e)) + 1)
        (Tree.node c rk rd rhA e))
        = (getHeight l' : Int) - rhA := rfl
    have hbalA : getBalance (Tree.node c rk rd rhA e)
        = (getHeight c : Int) - getHeight e := rfl
    rcases Int.le_or_lt (getBalance (Tree.node c rk rd rhA e)) 0 with hble | hbgt
    · -- RR case of the delete fixup: single left rotation
      rw [hbalA] at hble
      simp only [rebalanceDel]
      rw [if_neg (by rintro ⟨hc', -⟩; rw [hbal2] at hc'; omega),
        if_neg (by rintro ⟨hc', -⟩; rw [hbal2] at hc'; omega),
        if_pos ⟨by rw [hbal2]; omega, by rw [hbalA]; (try simp only [getHeight_node]); omega⟩]
      have hlr : leftRotate (Tree.node l' k0 d
            (max (getHeight l') (getHeight (Tree.node c rk rd rhA e)) + 1)
            (Tree.node c rk rd rhA e))
          = Tree.node (Tree.node l' k0 d (max (getHeight l') (getHeight c) + 1) c)
              rk rd
              (max (max (getHeight l') (getHeight c) + 1) (getHeight e) + 1) e := rfl
      rw [hlr]
      refine ⟨⟨⟨hal, hAc, rfl, by (try simp only [getHeight_node]); omega,
          by (try simp only [getHeight_node]); omega⟩, hAe, rfl,
          by (try simp only [getHeight_node]); omega,
          by (try simp only [getHeight_node]); omega⟩, ?_⟩
      simp only [getHeight_node]
      omega
    · -- RL case of the delete fixup
      rw [hbalA] at hbgt
      have hcpos : 0 < getHeight c := by omega
      obtain ⟨c1, ck, cd, hcC, c2, rfl⟩ := exists_node_of_height_pos c hcpos
      obtain ⟨hC1, hC2, hhC, hc12, hc21⟩ := hAc
      simp only [getHeight_node] at hhA hce1 hce2 hr2 hbgt
      simp only [rebalanceDel]
      rw [if_neg (by rintro ⟨hc', -⟩; rw [hbal2] at hc'; omega),
        if_neg (by rintro ⟨hc', -⟩; rw [hbal2] at hc'; omega),
        if_neg (by rintro ⟨-, hc'⟩; rw [hbalA] at hc'; (try simp only [getHeight_node] at hc'); omega),
        if_pos ⟨by rw [hbal2]; omega, by rw [hbalA]; (try simp only [getHeight_node]); omega⟩]
      have hrl : leftRotate (Tree.node l' k0 d
            (max (getHeight l')
              (getHeight (Tree.node (Tree.node c1 ck cd hcC c2) rk rd rhA e)) + 1)
            (rightRotate (Tree.node (Tree.node c1 ck cd hcC c2) rk rd rhA e)))
          = Tree.node (Tree.node l' k0 d (max (getHeight l') (getHeight c1) + 1) c1)
              ck cd
              (max (max (getHeight l') (getHeight c1) + 1)
                (max (getHeight c2) (getHeight e) + 1) + 1)
              (Tree.node c2 rk rd (max (getHeight c2) (getHeight e) + 1) e) := rfl
      rw [hrl]
      refine ⟨⟨⟨hal, hC1, rfl, by (try simp only [getHeight_node]); omega,
          by (try simp only [getHeight_node]); omega⟩,
          ⟨hC2, hAe, rfl, by (try simp only [getHeight_node]); omega,
            by (try simp only [getHeight_node]); omega⟩, rfl,
          by (try simp only [getHeight_node]); omega,
          by (try simp only [getHeight_node]); omega⟩, ?_⟩
      simp only [getHeight_node]
      omega

theorem findMin_node_exists (l : Tree α) (k : Int) (d : α) (h : Nat) (r : Tree α) :
    ∃ mk md, findMin (Tree.node l k d h r) = some (mk, md) := by
  simp only [findMin]
  cases findMin l with
  | none => exact ⟨k, d, rfl⟩
  | some p => exact ⟨p.1, p.2, rfl⟩

/-- After `deleteNode` on an AVL-invariant tree, the invariant still
holds and the stored root height shrinks by at most one. -/
theorem deleteNode_avl (t : Tree α) (k : Int) (ht : Avl t) :
    Avl (deleteNode t k) ∧
    (getHeight (deleteNode t k) = getHeight t ∨
      getHeight (deleteNode t k) + 1 = getHeight t) := by
  induction t generalizing k with
  | leaf => exact ⟨trivial, Or.inl rfl⟩
  | node l k0 d h r ihl ihr =>
    obtain ⟨hal, har, hh, hbl, hbr⟩ := ht
    by_cases h1 : k < k0
    · simp only [deleteNode, if_pos h1]
      obtain ⟨ihA, ihH⟩ := ihl k hal
      obtain ⟨hA, hH⟩ :=
        del_fix_left (deleteNode l k) r k0 d h (getHeight l) ihA har hbl hbr ihH
      refine ⟨hA, ?_⟩
      simp only [getHeight_node]
      rcases hH with h' | h' <;> omega
    · by_cases h2 : k0 < k
      · simp only [deleteNode, if_neg h1, if_pos h2]
        obtain ⟨ihA, ihH⟩ := ihr k har
        obtain ⟨hA, hH⟩ :=
          del_fix_right l (deleteNode r k) k0 d h (getHeight r) hal ihA hbl hbr ihH
        refine ⟨hA, ?_⟩
        simp only [getHeight_node]
        rcases hH with h' | h' <;> omega
      · have hk : k = k0 := by omega
        subst hk
        cases l with
        | leaf =>
          have hred : deleteNode (Tree.node Tree.leaf k d h r) k = r := by
            simp [deleteNode, h1, isNull]
          rw [hred]
          refine ⟨har, Or.inr ?_⟩
          simp only [getHeight_node]
          simp only [getHeight_leaf] at hh
          omega
        | node ll lk ld lh lr =>
          cases r with
          | leaf =>
            have hred : deleteNode
                (Tree.node (Tree.node ll lk ld lh lr) k d h Tree.leaf) k
                = Tree.node ll lk ld lh lr := by
              simp [deleteNode, h1, isNull]
            rw [hred]
            refine ⟨hal, Or.inr ?_⟩
            simp only [getHeight_node]
            simp only [getHeight_leaf, getHeight_node] at hh
            omega
          | node rl rk rd rh rr =>
            obtain ⟨mk, md, hfm⟩ :=
              findMin_node_exists rl rk rd rh rr
            have hred : deleteNode (Tree.node (Tree.node ll lk ld lh lr) k d h
                  (Tree.node rl rk rd rh rr)) k
                = rebalanceDel (updateHeight
                    (Tree.node (Tree.node ll lk ld lh lr) mk md h
                      (deleteNode (Tree.node rl rk rd rh rr) mk))) := by
              simp [deleteNode, h1, isNull, hfm]
            rw [hred]
            obtain ⟨ihA, ihH⟩ := ihr mk har
            obtain ⟨hA, hH⟩ :=
              del_fix_right (Tree.node ll lk ld lh lr)
                (deleteNode (Tree.node rl rk rd rh rr) mk) mk md h
                (getHeight (Tree.node rl rk rd rh rr)) hal ihA hbl hbr ihH
            refine ⟨hA, ?_⟩
            simp only [getHeight_node] at hH hh ⊢
            rcases hH with h' | h' <;> omega

theorem avl_applyOp (t : Tree α) (op : Op α) (h : Avl t) : Avl (applyOp t op) := by
  cases op with
  | ins k v => exact (insertNode_avl t k v h).1
  | del k => exact (deleteNode_avl t k h).1

/-- Every tree reachable from the empty cache satisfies the full AVL
invariant: correct stored heights and balance factors in `{-1,0,1}`. -/
theorem avl_applyOps (ops : List (Op α)) : Avl (applyOps ops) := by
  rw [applyOps]
  have H : ∀ t : Tree α, Avl t → Avl (ops.foldl applyOp t) := by
    induction ops with
    | nil => exact fun t h => h
    | cons op ops ih => exact fun t h => ih _ (avl_applyOp t op h)
  exact H .leaf trivial

theorem keys_node (l : Tree α) (k : Int) (d : α) (h : Nat) (r : Tree α) :
    keys (Tree.node l k d h r) = keys l ++ k :: keys r := by
  simp [keys, inorder]

/-- Deleting a key that is not present leaves the tree bit-for-bit
unchanged: the recursion walks one spine, every `updateHeight` rewrites
the height that is already stored, and no rebalancing case fires. -/
theorem deleteNode_absent (t : Tree α) (k : Int) (ht : Avl t)
    (hk : k ∉ keys t) : deleteNode t k = t := by
  induction t with
  | leaf => rfl
  | node l k0 d h r ihl ihr =>
    obtain ⟨hal, har, hh, hb1, hb2⟩ := ht
    rw [keys_node] at hk
    simp only [List.mem_append, List.mem_cons] at hk
    push_neg at hk
    obtain ⟨hkl, hkk0, hkr⟩ := hk
    by_cases h1 : k < k0
    · simp only [deleteNode, if_pos h1]
      rw [ihl hal hkl]
      rw [show updateHeight (Tree.node l k0 d h r)
          = Tree.node l k0 d (max (getHeight l) (getHeight r) + 1) r from rfl]
      rw [rebalanceDel_noop _ _ _ _ _ (by omega) (by omega), hh]
    · by_cases h2 : k0 < k
      · simp only [deleteNode, if_neg h1, if_pos h2]
        rw [ihr har hkr]
        rw [show updateHeight (Tree.node l k0 d h r)
            = Tree.node l k0 d (max (getHeight l) (getHeight r) + 1) r from rfl]
        rw [rebalanceDel_noop _ _ _ _ _ (by omega) (by omega), hh]
      · exact absurd (by omega) hkk0

/-- Pure value replacement at a key: the shape, the key set and every
stored height are untouched; only the data at the addressed node
changes. -/
def setData : Tree α → Int → α → Tree α
  | .leaf, _, _ => .leaf
  | .node l k0 d h r, k, v =>
    if k < k0 then .node (setData l k v) k0 d h r
    else if k0 < k then .node l k0 d h (setData r k v)
    else .node l k0 v h r

theorem getHeight_setData (t : Tree α) (k : Int) (v : α) :
    getHeight (setData t k v) = getHeight t := by
  cases t with
  | leaf => rfl
  | node l k0 d h r =>
    simp only [setData]
    split_ifs <;> rfl

theorem mem_keys_of_mem_inorder (t : Tree α) (p : Int × α)
    (hp : p ∈ inorder t) : p.1 ∈ keys t :=
  List.mem_map_of_mem Prod.fst hp

/-- Inserting an already-present key only replaces the stored data at
the node holding that key: the result is literally `setData`. -/
theorem insertNode_present (t : Tree α) (k : Int) (v : α) (ht : Avl t)
    (hord : ordered (inorder t)) (hk : k ∈ keys t) :
    insertNode t k v = setData t k v := by
  induction t with
  | leaf => simp [keys, inorder] at hk
  | node l k0 d h r ihl ihr =>
    obtain ⟨hal, har, hh, hb1, hb2⟩ := ht
    rw [inorder, ordered_node_iff] at hord
    obtain ⟨hordl, hordr, hlk, hrk⟩ := hord
    rw [keys_node] at hk
    simp only [List.mem_append, List.mem_cons] at hk
    by_cases h1 : k < k0
    · have hkl : k ∈ keys l := by
        rcases hk with h' | h' | h'
        · exact h'
        · omega
        · exfalso
          rw [keys, List.mem_map] at h'
          obtain ⟨p, hp, hpk⟩ := h'
          have := hrk p hp
          omega
      simp only [insertNode, if_pos h1]
      rw [ihl hal hordl hkl]
      rw [show updateHeight (Tree.node (setData l k v) k0 d h r)
          = Tree.node (setData l k v) k0 d
              (max (getHeight (setData l k v)) (getHeight r) + 1) r from rfl,
        getHeight_setData,
        rebalanceIns_noop _ _ _ _ _ _ (by rw [getHeight_setData]; omega) (by rw [getHeight_setData]; omega), ← hh]
      simp [setData, h1]
    · by_cases h2 : k0 < k
      · have hkr : k ∈ keys r := by
          rcases hk with h' | h' | h'
          · exfalso
            rw [keys, List.mem_map] at h'
            obtain ⟨p, hp, hpk⟩ := h'
            have := hlk p hp
            omega
          · omega
          · exact h'
        simp only [insertNode, if_neg h1, if_pos h2]
        rw [ihr har hordr hkr]
        rw [show updateHeight (Tree.node l k0 d h (setData r k v))
            = Tree.node l k0 d
                (max (getHeight l) (getHeight (setData r k v)) + 1)
                (setData r k v) from rfl,
          getHeight_setData,
          rebalanceIns_noop _ _ _ _ _ _ (by rw [getHeight_setData]; omega) (by rw [getHeight_setData]; omega), ← hh]
        simp [setData, h1, h2]
      · simp only [insertNode, if_neg h1, if_neg h2]
        simp [setData, h1, h2]

/-- `lookupList` finds the freshly inserted binding. -/
theorem lookupList_insList (k q : Int) (v : α) (xs : List (Int × α)) :
    lookupList q (insList k v xs) = if q = k then some v else lookupList q xs := by
  induction xs with
  | nil => by_cases hq : q = k <;> simp [insList, lookupList, hq]
  | cons x xs ih =>
    obtain ⟨k', v'⟩ := x
    by_cases h1 : k < k'
    · simp only [insList, if_pos h1]
      by_cases hq : q = k <;> simp [lookupList, hq]
    · by_cases h2 : k' < k
      · simp only [insList, if_neg h1, if_pos h2]
        by_cases hq : q = k'
        · have hne : ¬ k' = k := by omega
          subst hq
          simp [lookupList, hne]
        · simp [lookupList, hq, ih]
      · have hkk : k = k' := by omega
        subst hkk
        simp only [insList, if_neg h1, if_neg h2]
        by_cases hq : q = k <;> simp [lookupList, hq]

/-- `lookupList` misses exactly the keys outside the list. -/
theorem lookupList_eq_none_iff (k : Int) (xs : List (Int × α)) :
    lookupList k xs = none ↔ k ∉ xs.map Prod.fst := by
  induction xs with
  | nil => simp [lookupList]
  | cons x xs ih =>
    obtain ⟨k', v'⟩ := x
    by_cases hq : k = k' <;> simp [lookupList, hq, ih]

theorem length_delList_mem (k : Int) (xs : List (Int × α))
    (hk : k ∈ xs.map Prod.fst) :
    (delList k xs).length + 1 = xs.length := by
  induction xs with
  | nil => simp at hk
  | cons x xs ih =>
    obtain ⟨k', v'⟩ := x
    by_cases hq : k = k'
    · simp [delList, hq]
    · simp only [List.map_cons, List.mem_cons] at hk
      rcases hk with h' | h'
      · exact absurd h' hq
      · simp [delList, hq, ← ih h']

theorem not_mem_delList (k : Int) (xs : List (Int × α))
    (hord : ordered xs) : k ∉ (delList k xs).map Prod.fst := by
  induction xs with
  | nil => simp [delList]
  | cons x xs ih =>
    obtain ⟨k', v'⟩ := x
    rw [ordered, List.pairwise_cons] at hord
    obtain ⟨hlt, hxs⟩ := hord
    by_cases hq : k = k'
    · subst hq
      simp only [delList, if_pos rfl]
      intro hmem
      rw [List.mem_map] at hmem
      obtain ⟨p, hp, hpk⟩ := hmem
      have := hlt p hp
      omega
    · simp only [delList, if_neg hq, List.map_cons, List.mem_cons]
      push_neg
      exact ⟨fun h => hq h, ih hxs⟩

/-! ### The rebuild (`syncWithDatabase`) -/

variable {β : Type} {ε : Type}

/-- The destructuring swap `[items[i], items[j]] = [items[j], items[i]]`. -/
def swapIdx (l : List β) (i j : Nat) : List β :=
  match l.get? i, l.get? j with
  | some a, some b => (l.set i b).set j a
  | _, _ => l

/-- The Fisher-Yates loop of `syncWithDatabase`: for `i` from
`length - 1` down to `1`, draw `j ≤ i` and swap positions `i` and `j`.
The random draw is abstracted as an arbitrary function `rand`. -/
def fyAux (rand : Nat → Nat) : Nat → List β → List β
  | 0, l => l
  | i + 1, l => fyAux rand i (swapIdx l (i + 1) (rand (i + 1) % (i + 2)))

def fyShuffle (rand : Nat → Nat) (l : List β) : List β :=
  fyAux rand (l.length - 1) l

/-- `syncWithDatabase`: on fetch success the tree is discarded
(`this.root = null`), the fetched rows are shuffled in place, and every
row is reinserted via `insert`; on fetch failure the `catch` block only
logs, so the tree field is left untouched.  The backing-store outcome
and the random draws are explicit parameters. -/
def syncWithDatabase (t : Tree α) (fetch : Except ε (List (Int × α)))
    (rand : Nat → Nat) : Tree α :=
  match fetch with
  | .error _ => t
  | .ok rows =>
      (fyShuffle rand rows).foldl (fun acc p => insertNode acc p.1 p.2) .leaf

theorem set_self (l : List β) (i : Nat) (a : β) (h : l.get? i = some a) :
    l.set i a = l := by
  induction l generalizing i with
  | nil => simp at h
  | cons x xs ih =>
    cases i with
    | zero =>
      simp only [List.get?] at h
      cases h
      rfl
    | succ n =>
      simp only [List.get?] at h
      simp [List.set, ih n h]

theorem cons_set_perm (t : List β) (m : Nat) (x y : β)
    (hm : t.get? m = some y) : (y :: t.set m x).Perm (x :: t) := by
  induction t generalizing m with
  | nil => simp at hm
  | cons c s ih =>
    cases m with
    | zero =>
      simp only [List.get?] at hm
      cases hm
      exact List.Perm.swap _ _ _
    | succ n =>
      simp only [List.get?] at hm
      show (y :: c :: s.set n x).Perm (x :: c :: s)
      have h1 : (y :: c :: s.set n x).Perm (c :: y :: s.set n x) :=
        List.Perm.swap c y (s.set n x)
      have h2 : (c :: y :: s.set n x).Perm (c :: x :: s) :=
        List.Perm.cons c (ih n hm)
      have h3 : (c :: x :: s).Perm (x :: c :: s) := List.Perm.swap x c s
      exact (h1.trans h2).trans h3

theorem double_set_perm (l : List β) (i j : Nat) (a b : β) (hij : i < j)
    (hi : l.get? i = some a) (hj : l.get? j = some b) :
    ((l.set i b).set j a).Perm l := by
  induction l generalizing i j with
  | nil => simp at hi
  | cons c s ih =>
    cases i with
    | zero =>
      simp only [List.get?] at hi
      cases hi
      obtain ⟨m, rfl⟩ : ∃ m, j = m + 1 := ⟨j - 1, by omega⟩
      simp only [List.get?] at hj
      show (b :: s.set m a).Perm (a :: s)
      exact cons_set_perm s m a b hj
    | succ n =>
      obtain ⟨m, rfl⟩ : ∃ m, j = m + 1 := ⟨j - 1, by omega⟩
      simp only [List.get?] at hi hj
      show (c :: (s.set n b).set m a).Perm (c :: s)
      exact List.Perm.cons c (ih n m (by omega) hi hj)

theorem swapIdx_perm (l : List β) (i j : Nat) : (swapIdx l i j).Perm l := by
  rw [swapIdx]
  cases hi : l.get? i with
  | none => exact List.Perm.refl l
  | some a =>
    cases hj : l.get? j with
    | none => exact List.Perm.refl l
    | some b =>
      show ((l.set i b).set j a).Perm l
      rcases Nat.lt_trichotomy i j with hij | hij | hij
      · exact double_set_perm l i j a b hij hi hj
      · subst hij
        rw [hi] at hj
        cases hj
        rw [List.set_set, set_self l i a hi]
      · rw [List.set_comm b a l (show i ≠ j by omega)]
        exact double_set_perm l j i b a hij hj hi

theorem fyAux_perm (rand : Nat → Nat) (i : Nat) (l : List β) :
    (fyAux rand i l).Perm l := by
  induction i generalizing l with
  | zero => exact List.Perm.refl l
  | succ n ih =>
    exact (ih _).trans (swapIdx_perm l (n + 1) (rand (n + 1) % (n + 2)))

/-- Whatever the random draws, the in-place shuffle of the rebuild
produces a permutation of the fetched rows. -/
theorem fyShuffle_perm (rand : Nat → Nat) (l : List β) :
    (fyShuffle rand l).Perm l :=
  fyAux_perm rand (l.length - 1) l

/-- The last binding for key `q` in a row list, with fallback `acc`. -/
def lastVal (q : Int) : List (Int × α) → Option α → Option α
  | [], acc => acc
  | (k, v) :: rest, acc => lastVal q rest (if q = k then some v else acc)

theorem search_insertNode (t : Tree α) (k q : Int) (v : α)
    (hord : ordered (inorder t)) :
    search (insertNode t k v) q = if q = k then some v else search t q := by
  have hord' : ordered (inorder (insertNode t k v)) := by
    rw [inorder_insertNode _ _ _ hord]
    exact ordered_insList _ _ _ hord
  rw [search_eq_lookupList _ _ hord', inorder_insertNode _ _ _ hord,
    lookupList_insList, search_eq_lookupList _ _ hord]

theorem ordered_foldl_insert (rows : List (Int × α)) (t : Tree α)
    (hord : ordered (inorder t)) :
    ordered (inorder (rows.foldl (fun acc p => insertNode acc p.1 p.2) t)) := by
  induction rows generalizing t with
  | nil => exact hord
  | cons p rest ih =>
    refine ih _ ?_
    rw [inorder_insertNode _ _ _ hord]
    exact ordered_insList _ _ _ hord

theorem search_foldl_insert (rows : List (Int × α)) (t : Tree α) (q : Int)
    (hord : ordered (inorder t)) :
    search (rows.foldl (fun acc p => insertNode acc p.1 p.2) t) q
      = lastVal q rows (search t q) := by
  induction rows generalizing t with
  | nil => rfl
  | cons p rest ih =>
    obtain ⟨k, v⟩ := p
    have hord' : ordered (inorder (insertNode t k v)) := by
      rw [inorder_insertNode _ _ _ hord]
      exact ordered_insList _ _ _ hord
    simp only [List.foldl_cons, lastVal]
    rw [ih (insertNode t k v) hord', search_insertNode t k q v hord]

theorem lastVal_not_mem (q : Int) (rows : List (Int × α)) (acc : Option α)
    (hq : q ∉ rows.map Prod.fst) : lastVal q rows acc = acc := by
  induction rows generalizing acc with
  | nil => rfl
  | cons p rest ih =>
    obtain ⟨k, v⟩ := p
    simp only [List.map_cons, List.mem_cons] at hq
    push_neg at hq
    simp only [lastVal, if_neg hq.1]
    exact ih _ hq.2

theorem lastVal_mem (q : Int) (v : α) (rows : List (Int × α)) (acc : Option α)
    (hnd : (rows.map Prod.fst).Nodup) (hv : (q, v) ∈ rows) :
    lastVal q rows acc = some v := by
  induction rows generalizing acc with
  | nil => simp at hv
  | cons p rest ih =>
    obtain ⟨k, w⟩ := p
    simp only [List.map_cons, List.nodup_cons] at hnd
    rcases List.mem_cons.mp hv with heq | hv'
    · cases heq
      simp only [lastVal, if_pos rfl]
      exact lastVal_not_mem q rest _ hnd.1
    · simp only [lastVal]
      exact ih _ hnd.2 hv'

theorem lastVal_mem_keys (q : Int) (rows : List (Int × α))
    (hq : q ∈ rows.map Prod.fst) : ∃ v, (q, v) ∈ rows := by
  rw [List.mem_map] at hq
  obtain ⟨p, hp, hpq⟩ := hq
  exact ⟨p.2, by rwa [show (q, p.2) = p from Prod.ext hpq.symm rfl]⟩

theorem search_eq_none_iff (t : Tree α) (q : Int)
    (hord : ordered (inorder t)) :
    search t q = none ↔ q ∉ keys t := by
  rw [search_eq_lookupList _ _ hord, keys]
  exact lookupList_eq_none_iff q (inorder t)

/-! ### Claims about `ItemAVL` -/

/-- C1.  For every sequence of insert and delete operations starting
from the empty tree, every node of the resulting tree satisfies the AVL
balance condition (child heights differ by at most 1) and every stored
height field equals 1 + max of the children's heights — this is exactly
the structural predicate `Avl`, and it holds after each operation since
every prefix of a sequence is again a sequence. -/
theorem avl_invariant_preserved (ops : List (Op α)) : Avl (applyOps ops) :=
  avl_applyOps ops

/-- C2.  For every sequence of insert and delete operations starting
from the empty tree, the in-order traversal of the resulting tree
visits keys in strictly increasing order. -/
theorem bst_inorder_strictly_increasing (ops : List (Op α)) :
    List.Chain' (fun a b => a < b) (keys (applyOps ops)) := by
  rw [List.chain'_iff_pairwise, keys, List.pairwise_map]
  exact ordered_applyOps ops

/-- C5.  When the backing-store fetch of `syncWithDatabase` fails, the
`catch` block only logs: the tree is exactly what it was before the
rebuild attempt, and the rebuild routine returns normally (in the
embedding it is a total function, so no failure propagates). -/
theorem sync_failure_leaves_tree_untouched (t : Tree α) (e : ε)
    (rand : Nat → Nat) :
    syncWithDatabase t (Except.error e) rand = t := rfl

/-- C6.  After a successful rebuild, whatever permutation the shuffle
produced, the tree contains exactly the snapshot: every snapshot pair
is found by `search`, the key set equals the snapshot's key set (so no
pre-rebuild key survives), and no key occurs twice. -/
theorem rebuild_resets_content {ε : Type} (t : Tree α) (rows : List (Int × α))
    (rand : Nat → Nat) (hnd : (rows.map Prod.fst).Nodup) :
    (∀ p ∈ rows, search (syncWithDatabase t (Except.ok rows : Except ε (List (Int × α))) rand) p.1 = some p.2) ∧
    (∀ q : Int, q ∈ keys (syncWithDatabase t (Except.ok rows : Except ε (List (Int × α))) rand)
        ↔ q ∈ rows.map Prod.fst) ∧
    (keys (syncWithDatabase t (Except.ok rows : Except ε (List (Int × α))) rand)).Nodup := by
  have hperm : (fyShuffle rand rows).Perm rows := fyShuffle_perm rand rows
  have hnd' : ((fyShuffle rand rows).map Prod.fst).Nodup :=
    ((hperm.map Prod.fst).nodup_iff).mpr hnd
  have hordleaf : ordered (inorder (Tree.leaf : Tree α)) := by
    simp [inorder, ordered]
  have hsync : syncWithDatabase t (Except.ok rows : Except ε (List (Int × α))) rand
      = (fyShuffle rand rows).foldl (fun acc p => insertNode acc p.1 p.2)
          Tree.leaf := rfl
  have hordb : ordered (inorder (syncWithDatabase t (Except.ok rows : Except ε (List (Int × α))) rand)) := by
    rw [hsync]
    exact ordered_foldl_insert _ _ hordleaf
  have hsearch : ∀ q, search (syncWithDatabase t (Except.ok rows : Except ε (List (Int × α))) rand) q
      = lastVal q (fyShuffle rand rows) none := by
    intro q
    rw [hsync, search_foldl_insert _ _ _ hordleaf]
    rfl
  refine ⟨?_, ?_, ?_⟩
  · intro p hp
    obtain ⟨pk, pv⟩ := p
    rw [hsearch]
    exact lastVal_mem pk pv _ none hnd' (hperm.mem_iff.mpr hp)
  · intro q
    rw [← hperm.map Prod.fst |>.mem_iff]
    constructor
    · intro hq
      by_contra hnq
      have h0 : search (syncWithDatabase t
          (Except.ok rows : Except ε (List (Int × α))) rand) q = none := by
        rw [hsearch q]
        exact lastVal_not_mem q _ none hnq
      exact ((search_eq_none_iff _ _ hordb).mp h0) hq
    · intro hq
      obtain ⟨v, hv⟩ := lastVal_mem_keys q _ hq
      by_contra hnk
      have h0 := (search_eq_none_iff _ _ hordb).mpr hnk
      rw [hsearch q, lastVal_mem q v _ none hnd' hv] at h0
      exact Option.noConfusion h0
  · have h := hordb
    rw [keys]
    exact List.pairwise_map.mpr (h.imp (fun hab => ne_of_lt hab))

theorem rebuild_resets_content_witness :
    (([((1 : Int), (10 : Nat)), (2, 20)].map Prod.fst).Nodup) ∧
    ((∀ p ∈ [((1 : Int), (10 : Nat)), (2, 20)],
        search (syncWithDatabase (Tree.leaf : Tree Nat)
          (Except.ok [((1 : Int), (10 : Nat)), (2, 20)] : Except Unit (List (Int × Nat)))
          (fun _ => 0)) p.1 = some p.2) ∧
      (∀ q : Int, q ∈ keys (syncWithDatabase (Tree.leaf : Tree Nat)
          (Except.ok [((1 : Int), (10 : Nat)), (2, 20)] : Except Unit (List (Int × Nat)))
          (fun _ => 0))
        ↔ q ∈ [((1 : Int), (10 : Nat)), (2, 20)].map Prod.fst) ∧
      (keys (syncWithDatabase (Tree.leaf : Tree Nat)
          (Except.ok [((1 : Int), (10 : Nat)), (2, 20)] : Except Unit (List (Int × Nat)))
          (fun _ => 0))).Nodup) :=
  ⟨by decide,
    rebuild_resets_content Tree.leaf [((1 : Int), (10 : Nat)), (2, 20)]
      (fun _ => 0) (by decide)⟩

/-- C7.  `insert(k, v)` on any reachable tree, followed immediately by
`search(k)`, returns `v`. -/
theorem insert_search_roundtrip (ops : List (Op α)) (k : Int) (v : α) :
    search (insert (applyOps ops) k v) k = some v := by
  rw [insert, search_insertNode _ _ _ _ (ordered_applyOps ops), if_pos rfl]

/-- C8.  On any reachable tree: deleting a present key returns `true`
and a subsequent search misses; deleting an absent key returns `false`
and leaves the tree (hence its size and content) unchanged. -/
theorem delete_correctness (ops : List (Op α)) (k : Int) :
    (search (applyOps ops) k ≠ none →
      (delete (applyOps ops) k).2 = true ∧
      search ((delete (applyOps ops) k).1) k = none) ∧
    (search (applyOps ops) k = none →
      (delete (applyOps ops) k).2 = false ∧
      (delete (applyOps ops) k).1 = applyOps ops) := by
  have hord := ordered_applyOps ops
  have havl := avl_applyOps ops
  constructor
  · intro hne
    have hmem : k ∈ keys (applyOps ops) := by
      by_contra hmm
      exact hne ((search_eq_none_iff _ _ hord).mpr hmm)
    have hmem' : k ∈ (inorder (applyOps ops)).map Prod.fst := by
      rw [keys] at hmem
      exact hmem
    have hsize : size (deleteNode (applyOps ops) k) + 1 = size (applyOps ops) := by
      rw [size, size, inorder_deleteNode _ _ hord]
      exact length_delList_mem k _ hmem'
    refine ⟨?_, ?_⟩
    · simp only [delete]
      rw [decide_eq_true_eq]
      omega
    · have hord' : ordered (inorder (deleteNode (applyOps ops) k)) := by
        rw [inorder_deleteNode _ _ hord]
        exact ordered_delList _ _ hord
      simp only [delete]
      rw [search_eq_lookupList _ _ hord', inorder_deleteNode _ _ hord]
      apply lookupList_eq_none
      intro p hp hpk
      have hmm := List.mem_map_of_mem Prod.fst hp
      rw [hpk] at hmm
      exact not_mem_delList k _ hord hmm
  · intro hnone
    have hmm : k ∉ keys (applyOps ops) := (search_eq_none_iff _ _ hord).mp hnone
    have hdel : deleteNode (applyOps ops) k = applyOps ops :=
      deleteNode_absent _ _ havl hmm
    refine ⟨?_, ?_⟩
    · simp only [delete, hdel]
      simp
    · simpa [delete] using hdel

/-- Witness for C8 at concrete inputs: key 1 is present in the tree
built by inserting 1 and 2; key 5 is absent. -/
theorem delete_correctness_witness :
    ((delete (applyOps [Op.ins 1 10, Op.ins 2 20]) 1).2 = true ∧
      search ((delete (applyOps [Op.ins 1 10, Op.ins 2 20]) 1).1) 1 = none) ∧
    ((delete (applyOps [Op.ins 1 10, Op.ins 2 20]) 5).2 = false ∧
      (delete (applyOps [Op.ins 1 10, Op.ins 2 20]) 5).1
        = applyOps [Op.ins 1 10, Op.ins 2 20]) :=
  ⟨(delete_correctness [Op.ins 1 10, Op.ins 2 20] 1).1 (by decide),
    (delete_correctness [Op.ins 1 10, Op.ins 2 20] 5).2 (by decide)⟩

/-- C10.  Inserting a key that is already present in a reachable tree
is exactly `setData`: only the data at the node holding that key
changes; the key set, the shape and every stored height are unchanged
and no rotation runs. -/
theorem insert_existing_key_frame (ops : List (Op α)) (k : Int) (v : α)
    (hk : k ∈ keys (applyOps ops)) :
    insert (applyOps ops) k v = setData (applyOps ops) k v :=
  insertNode_present _ _ _ (avl_applyOps ops) (ordered_applyOps ops) hk

/-- Witness for C10 at a concrete input: overwriting key 1 in the tree
built by inserting 1 and 2. -/
theorem insert_existing_key_frame_witness :
    insert (applyOps [Op.ins 1 10, Op.ins 2 20]) 1 99
      = setData (applyOps [Op.ins 1 10, Op.ins 2 20]) 1 99 :=
  insert_existing_key_frame [Op.ins 1 10, Op.ins 2 20] 1 99 (by decide)

end AvlCache

namespace UserHash

/-- `UserNode`: email key, opaque data, last-access timestamp. -/
structure UNode (β : Type) where
  email : String
  data : β
  lastAccessed : Nat
deriving DecidableEq, Repr

/-- `UserHashTable`: the bucket array plus the configured maximum size.
The bucket count (`this.size`) is the length of `table`; the
constructor fills `table` with that many empty buckets and every
operation preserves the length. -/
structure UserHashTable (β : Type) where
  table : List (List (UNode β))
  maxSize : Nat
deriving DecidableEq, Repr

variable {β : Type}

/-- The constructor's bucket array: `size` empty buckets. -/
def mkTable (β : Type) (size maxSize : Nat) : UserHashTable β :=
  ⟨List.replicate size [], maxSize⟩

/-- `hash`: sum of the character codes of the email, modulo the bucket
count.  (`charCodeAt` yields UTF-16 units; `Char.toNat` agrees with it
on the basic multilingual plane.) -/
def hashEmail (email : String) (size : Nat) : Nat :=
  (email.data.map Char.toNat).sum % size

/-- The bucket at index `i` (`this.table[index]`). -/
def bucketAt (t : UserHashTable β) (i : Nat) : List (UNode β) :=
  t.table.getD i []

/-- The linear scan of `set` looking for an existing entry. -/
def bucketHas (email : String) : List (UNode β) → Bool
  | [] => false
  | e :: rest => e.email = email || bucketHas email rest

/-- In-place overwrite of the first entry with the given email
(`bucket[i] = node`). -/
def replaceInBucket (email : String) (nd : UNode β) :
    List (UNode β) → List (UNode β)
  | [] => []
  | e :: rest =>
      if e.email = email then nd :: rest
      else e :: replaceInBucket email nd rest

/-- `getCurrentSize`: `reduce((total, bucket) => total + bucket.length, 0)`. -/
def getCurrentSize (t : UserHashTable β) : Nat :=
  t.table.foldl (fun total bucket => total + bucket.length) 0

/-- Inner loop of `evictLeastRecentlyUsed` over one bucket, carrying
`(oldest.lastAccessed, oldestBucketIndex, oldestIndex)`; a later entry
only replaces the current oldest on a strictly smaller timestamp. -/
def scanBucket (i : Nat) : List (UNode β) → Nat →
    Option (Nat × Nat × Nat) → Option (Nat × Nat × Nat)
  | [], _, st => st
  | e :: rest, j, st =>
      scanBucket i rest (j + 1)
        (match st with
          | none => some (e.lastAccessed, i, j)
          | some (la, bi, pj) =>
              if e.lastAccessed < la then some (e.lastAccessed, i, j)
              else some (la, bi, pj))

/-- Outer loop of `evictLeastRecentlyUsed` over all buckets. -/
def scanTable : List (List (UNode β)) → Nat →
    Option (Nat × Nat × Nat) → Option (Nat × Nat × Nat)
  | [], _, st => st
  | b :: bs, i, st => scanTable bs (i + 1) (scanBucket i b 0 st)

/-- `evictLeastRecentlyUsed`: scan every bucket for the entry with the
smallest `lastAccessed` (first one wins ties) and splice it out; a
no-op when the table holds no entry. -/
def evictLeastRecentlyUsed (t : UserHashTable β) : UserHashTable β :=
  match scanTable t.table 0 none with
  | none => t
  | some (_, bi, pj) =>
      { t with table := t.table.set bi ((bucketAt t bi).eraseIdx pj) }

/-- The capacity check that follows a push: one eviction when the size
now exceeds `maxSize` (`if (this.getCurrentSize() > this.maxSize)`). -/
def evictIfOver (t' : UserHashTable β) : UserHashTable β :=
  if t'.maxSize < getCurrentSize t' then evictLeastRecentlyUsed t' else t'

/-- `set`: overwrite in place when the email already sits in its hash
bucket (early return, no eviction check); otherwise push the new node
and evict once if the total size now exceeds `maxSize`. -/
def set (t : UserHashTable β) (email : String) (d : β) (now : Nat) :
    UserHashTable β :=
  if bucketHas email (bucketAt t (hashEmail email t.table.length)) then
    { t with table := (t.table.set (hashEmail email t.table.length)
        (replaceInBucket email ⟨email, d, now⟩
          (bucketAt t (hashEmail email t.table.length)))) }
  else
    evictIfOver
      { t with table := (t.table.set (hashEmail email t.table.length)
          (bucketAt t (hashEmail email t.table.length) ++ [⟨email, d, now⟩])) }

/-- The in-place `lastAccessed` refresh performed by a `get` hit. -/
def refreshInBucket (email : String) (now : Nat) :
    List (UNode β) → List (UNode β)
  | [] => []
  | e :: rest =>
      if e.email = email then { e with lastAccessed := now } :: rest
      else e :: refreshInBucket email now rest

/-- The value returned by `get`. -/
def lookupBucket (email : String) : List (UNode β) → Option β
  | [] => none
  | e :: rest => if e.email = email then some e.data else lookupBucket email rest

/-- `get`: refresh `lastAccessed` on a hit and return the data;
`undefined` (here `none`) on a miss. -/
def get (t : UserHashTable β) (email : String) (now : Nat) :
    UserHashTable β × Option β :=
  ({ t with table := (t.table.set (hashEmail email t.table.length)
      (refreshInBucket email now
        (bucketAt t (hashEmail email t.table.length)))) },
    lookupBucket email (bucketAt t (hashEmail email t.table.length)))

/-- The `splice(i, 1)` of `remove`, dropping the first matching entry. -/
def removeFromBucket (email : String) : List (UNode β) → List (UNode β)
  | [] => []
  | e :: rest => if e.email = email then rest else e :: removeFromBucket email rest

/-- `remove`: drop the first entry with the email when present and
report whether a removal occurred. -/
def remove (t : UserHashTable β) (email : String) : UserHashTable β × Bool :=
  if bucketHas email (bucketAt t (hashEmail email t.table.length)) then
    ({ t with table := (t.table.set (hashEmail email t.table.length)
        (removeFromBucket email
          (bucketAt t (hashEmail email t.table.length)))) }, true)
  else (t, false)

/-- An operation issued against `UserHashTable`, timestamps explicit. -/
inductive UOp (β : Type) where
  | setU (email : String) (d : β) (now : Nat)
  | getU (email : String) (now : Nat)
  | removeU (email : String)
  | evictU

/-- Apply one operation to the table. -/
def applyUOp (t : UserHashTable β) : UOp β → UserHashTable β
  | .setU e d now => set t e d now
  | .getU e now => (get t e now).1
  | .removeU e => (remove t e).1
  | .evictU => evictLeastRecentlyUsed t

/-- The table reached from a fresh table by a sequence of operations. -/
def applyUOps (size maxSize : Nat) (ops : List (UOp β)) : UserHashTable β :=
  ops.foldl applyUOp (mkTable β size maxSize)

/-! ### Elementary bucket lemmas -/

variable {γ : Type}

theorem getD_set_self (bs : List (List γ)) (i : Nat) (b : List γ)
    (hi : i < bs.length) : (bs.set i b).getD i [] = b := by
  induction bs generalizing i with
  | nil => simp at hi
  | cons x xs ih =>
    cases i with
    | zero => rfl
    | succ n => exact ih n (by simpa using hi)

theorem getD_set_ne (bs : List (List γ)) (i j : Nat) (b : List γ)
    (hne : j ≠ i) : (bs.set i b).getD j [] = bs.getD j [] := by
  induction bs generalizing i j with
  | nil => rfl
  | cons x xs ih =>
    cases i with
    | zero =>
      cases j with
      | zero => exact absurd rfl hne
      | succ m => rfl
    | succ n =>
      cases j with
      | zero => rfl
      | succ m => exact ih n m (by omega)

theorem getD_mem_or_nil (bs : List (List γ)) (i : Nat) :
    bs.getD i [] ∈ bs ∨ bs.getD i [] = [] := by
  induction bs generalizing i with
  | nil => exact Or.inr rfl
  | cons x xs ih =>
    cases i with
    | zero => exact Or.inl (List.mem_cons_self _ _)
    | succ n =>
      rcases ih n with h | h
      · exact Or.inl (List.mem_cons_of_mem _ h)
      · exact Or.inr h

theorem map_email_replaceInBucket (email : String) (nd : UNode β)
    (b : List (UNode β)) (hnd : nd.email = email) :
    (replaceInBucket email nd b).map UNode.email = b.map UNode.email := by
  induction b with
  | nil => rfl
  | cons e rest ih =>
    by_cases he : e.email = email
    · simp [replaceInBucket, he, hnd]
    · simp [replaceInBucket, he, ih]

theorem map_email_refreshInBucket (email : String) (now : Nat)
    (b : List (UNode β)) :
    (refreshInBucket email now b).map UNode.email = b.map UNode.email := by
  induction b with
  | nil => rfl
  | cons e rest ih =>
    by_cases he : e.email = email
    · simp [refreshInBucket, he]
    · simp [refreshInBucket, he, ih]

theorem removeFromBucket_sublist (email : String) (b : List (UNode β)) :
    (removeFromBucket email b).Sublist b := by
  induction b with
  | nil => simp [removeFromBucket]
  | cons e rest ih =>
    by_cases he : e.email = email
    · simp [removeFromBucket, he, List.sublist_cons_self]
    · simpa [removeFromBucket, he] using ih.cons₂ e

theorem bucketHas_iff (email : String) (b : List (UNode β)) :
    bucketHas email b = true ↔ email ∈ b.map UNode.email := by
  induction b with
  | nil => simp [bucketHas]
  | cons e rest ih =>
    by_cases he : e.email = email
    · simp [bucketHas, he]
    · rw [show bucketHas email (e :: rest) = bucketHas email rest by
        simp [bucketHas, he], ih]
      simp only [List.map_cons, List.mem_cons]
      constructor
      · exact Or.inr
      · rintro (h | h)
        · exact absurd h.symm he
        · exact h

/-! ### The eviction scan, flattened -/

/-- The eviction scan expressed over a flat list of
`(entry, bucket index, position)` triples. -/
def scanFlat : List (UNode β × Nat × Nat) → Option (Nat × Nat × Nat) →
    Option (Nat × Nat × Nat)
  | [], st => st
  | (e, i, j) :: rest, st =>
      scanFlat rest
        (match st with
          | none => some (e.lastAccessed, i, j)
          | some (la, bi, pj) =>
              if e.lastAccessed < la then some (e.lastAccessed, i, j)
              else some (la, bi, pj))

/-- Entries of one bucket paired with their coordinates. -/
def enumBucket (i : Nat) : Nat → List (UNode β) → List (UNode β × Nat × Nat)
  | _, [] => []
  | j, e :: rest => (e, i, j) :: enumBucket i (j + 1) rest

/-- Entries of the whole table paired with their coordinates, in scan
order (bucket index first, then position). -/
def enumTable : Nat → List (List (UNode β)) → List (UNode β × Nat × Nat)
  | _, [] => []
  | i, b :: bs => enumBucket i 0 b ++ enumTable (i + 1) bs

/-- Reference description of the scan result: the first entry holding
the minimal timestamp. -/
def firstMin : List (UNode β × Nat × Nat) → Option (Nat × Nat × Nat)
  | [] => none
  | (e, i, j) :: rest =>
      match firstMin rest with
      | none => some (e.lastAccessed, i, j)
      | some (la, bi, pj) =>
          if e.lastAccessed ≤ la then some (e.lastAccessed, i, j)
          else some (la, bi, pj)

theorem scanBucket_eq_scanFlat (i : Nat) (b : List (UNode β)) (j : Nat)
    (st : Option (Nat × Nat × Nat)) :
    scanBucket i b j st = scanFlat (enumBucket i j b) st := by
  induction b generalizing j st with
  | nil => rfl
  | cons e rest ih => simp only [scanBucket, enumBucket, scanFlat, ih]

theorem scanFlat_append (L1 L2 : List (UNode β × Nat × Nat))
    (st : Option (Nat × Nat × Nat)) :
    scanFlat (L1 ++ L2) st = scanFlat L2 (scanFlat L1 st) := by
  induction L1 generalizing st with
  | nil => rfl
  | cons x rest ih =>
    obtain ⟨e, i, j⟩ := x
    simp only [List.cons_append, scanFlat, List.append_eq, ih]

theorem scanTable_eq_scanFlat (bs : List (List (UNode β))) (i : Nat)
    (st : Option (Nat × Nat × Nat)) :
    scanTable bs i st = scanFlat (enumTable i bs) st := by
  induction bs generalizing i st with
  | nil => rfl
  | cons b rest ih =>
    simp only [scanTable, enumTable, scanFlat_append,
      scanBucket_eq_scanFlat, ih]

theorem scanFlat_some (L : List (UNode β × Nat × Nat)) (s : Nat × Nat × Nat) :
    scanFlat L (some s)
      = match firstMin L with
        | none => some s
        | some m => if m.1 < s.1 then some m else some s := by
  induction L generalizing s with
  | nil => rfl
  | cons x rest ih =>
    obtain ⟨e, i, j⟩ := x
    obtain ⟨sla, sbi, spj⟩ := s
    by_cases hes : e.lastAccessed < sla
    · simp only [scanFlat, firstMin, if_pos hes]
      rw [ih]
      cases hm : firstMin rest with
      | none => simp [hes]
      | some m =>
        obtain ⟨mla, mbi, mpj⟩ := m
        by_cases hem : e.lastAccessed ≤ mla
        · have h1 : ¬ mla < e.lastAccessed := by omega
          simp [h1, hem, hes]
        · have h1 : mla < e.lastAccessed := by omega
          have h2 : mla < sla := by omega
          simp [h1, hem, h2]
    · simp only [scanFlat, firstMin, if_neg hes]
      rw [ih]
      cases hm : firstMin rest with
      | none =>
        have : ¬ e.lastAccessed < sla := hes
        simp [this]
      | some m =>
        obtain ⟨mla, mbi, mpj⟩ := m
        by_cases hem : e.lastAccessed ≤ mla
        · have h1 : ¬ e.lastAccessed < sla := hes
          have h2 : ¬ mla < sla := by omega
          simp [hem, h1, h2]
        · simp [hem]

theorem scanFlat_none (L : List (UNode β × Nat × Nat)) :
    scanFlat L none = firstMin L := by
  cases L with
  | nil => rfl
  | cons x rest =>
    obtain ⟨e, i, j⟩ := x
    simp only [scanFlat, firstMin]
    rw [scanFlat_some]
    cases hm : firstMin rest with
    | none => rfl
    | some m =>
      obtain ⟨mla, mbi, mpj⟩ := m
      by_cases hem : e.lastAccessed ≤ mla
      · have h1 : ¬ mla < e.lastAccessed := by omega
        simp [h1, hem]
      · have h1 : mla < e.lastAccessed := by omega
        simp [h1, hem]

theorem firstMin_eq_none_iff (L : List (UNode β × Nat × Nat)) :
    firstMin L = none ↔ L = [] := by
  cases L with
  | nil => simp [firstMin]
  | cons x rest =>
    obtain ⟨e, i, j⟩ := x
    simp only [firstMin]
    cases firstMin rest with
    | none => simp
    | some m =>
      obtain ⟨mla, mbi, mpj⟩ := m
      by_cases hem : e.lastAccessed ≤ mla <;> simp [hem]

theorem firstMin_spec (L : List (UNode β × Nat × Nat)) (la bi pj : Nat)
    (h : firstMin L = some (la, bi, pj)) :
    ∃ P e Q, L = P ++ (e, bi, pj) :: Q ∧ e.lastAccessed = la ∧
      (∀ x ∈ L, la ≤ x.1.lastAccessed) ∧
      (∀ x ∈ P, la < x.1.lastAccessed) := by
  induction L generalizing la bi pj with
  | nil => simp [firstMin] at h
  | cons x rest ih =>
    obtain ⟨e, i, j⟩ := x
    simp only [firstMin] at h
    cases hm : firstMin rest with
    | none =>
      rw [hm] at h
      obtain rfl : rest = [] := (firstMin_eq_none_iff rest).mp hm
      cases h
      exact ⟨[], e, [], rfl, rfl, by simp, by simp⟩
    | some m =>
      obtain ⟨mla, mbi, mpj⟩ := m
      rw [hm] at h
      by_cases hem : e.lastAccessed ≤ mla
      · simp only [if_pos hem] at h
        cases h
        obtain ⟨P', e', Q', hsplit, hla', hmin', hfirst'⟩ :=
          ih mla mbi mpj hm
        refine ⟨[], e, rest, rfl, rfl, ?_, by simp⟩
        intro x hx
        rcases List.mem_cons.mp hx with rfl | hx'
        · exact le_refl _
        · exact le_trans hem (hmin' x hx')
      · simp only [if_neg hem] at h
        cases h
        obtain ⟨P', e', Q', hsplit, hla', hmin', hfirst'⟩ :=
          ih la bi pj hm
        refine ⟨(e, i, j) :: P', e', Q', by rw [hsplit]; rfl, hla', ?_, ?_⟩
        · intro x hx
          rcases List.mem_cons.mp hx with rfl | hx'
          · show la ≤ e.lastAccessed
            omega
          · exact hmin' x hx'
        · intro x hx
          rcases List.mem_cons.mp hx with rfl | hx'
          · show la < e.lastAccessed
            omega
          · exact hfirst' x hx'

theorem map_fst_enumBucket (i j : Nat) (b : List (UNode β)) :
    (enumBucket i j b).map (fun x => x.1) = b := by
  induction b generalizing j with
  | nil => rfl
  | cons e rest ih => simp [enumBucket, ih]

theorem map_fst_enumTable (i : Nat) (bs : List (List (UNode β))) :
    (enumTable i bs).map (fun x => x.1) = bs.flatten := by
  induction bs generalizing i with
  | nil => rfl
  | cons b rest ih =>
    simp [enumTable, map_fst_enumBucket, ih, List.flatten_cons]

theorem enumBucket_split (b : List (UNode β)) (i j : Nat)
    (P Q : List (UNode β × Nat × Nat)) (e : UNode β) (bi pj : Nat)
    (h : enumBucket i j b = P ++ (e, bi, pj) :: Q) :
    bi = i ∧ pj = j + P.length ∧
    b = P.map (fun x => x.1) ++ e :: Q.map (fun x => x.1) ∧
    b.eraseIdx P.length = P.map (fun x => x.1) ++ Q.map (fun x => x.1) := by
  induction b generalizing j P with
  | nil => cases P <;> simp [enumBucket] at h
  | cons x rest ih =>
    cases P with
    | nil =>
      simp only [enumBucket, List.nil_append, List.cons.injEq,
        Prod.mk.injEq] at h
      obtain ⟨⟨rfl, rfl, rfl⟩, rfl⟩ := h
      refine ⟨rfl, by simp, ?_, ?_⟩
      · simp [map_fst_enumBucket]
      · simp [map_fst_enumBucket, List.eraseIdx]
    | cons p0 P' =>
      simp only [enumBucket, List.cons_append, List.cons.injEq] at h
      obtain ⟨rfl, h2⟩ := h
      obtain ⟨rfl, hpj, hb, herase⟩ := ih (j + 1) P' h2
      refine ⟨rfl, by simp only [List.length_cons]; omega, ?_, ?_⟩
      · simp only [List.map_cons, List.cons_append]
        rw [← hb]
      · simp only [List.length_cons, List.map_cons, List.cons_append]
        rw [show (x :: rest).eraseIdx (P'.length + 1)
            = x :: rest.eraseIdx P'.length from rfl, herase]

theorem enumTable_split (bs : List (List (UNode β))) (i : Nat)
    (P Q : List (UNode β × Nat × Nat)) (e : UNode β) (bi pj : Nat)
    (h : enumTable i bs = P ++ (e, bi, pj) :: Q) :
    i ≤ bi ∧ bi - i < bs.length ∧
    (bs.set (bi - i) ((bs.getD (bi - i) []).eraseIdx pj)).flatten
      = P.map (fun x => x.1) ++ Q.map (fun x => x.1) := by
  induction bs generalizing i P with
  | nil => cases P <;> simp [enumTable] at h
  | cons b rest ih =>
    simp only [enumTable] at h
    rcases List.append_eq_append_iff.mp h with ⟨a', ha1, ha2⟩ | ⟨c', hc1, hc2⟩
    · obtain ⟨hbi1, hbi2, hflat⟩ := ih (i + 1) a' ha2
      have hsub : bi - i = (bi - (i + 1)) + 1 := by omega
      refine ⟨by omega, ?_, ?_⟩
      · simp only [List.length_cons]
        omega
      · rw [hsub]
        rw [show ((b :: rest).set ((bi - (i + 1)) + 1)
              (((b :: rest).getD ((bi - (i + 1)) + 1) []).eraseIdx pj))
            = b :: rest.set (bi - (i + 1))
                ((rest.getD (bi - (i + 1)) []).eraseIdx pj) from rfl]
        rw [List.flatten_cons, hflat, ha1]
        simp [map_fst_enumBucket]
    · cases c' with
      | nil =>
        rw [List.append_nil] at hc1
        rw [List.nil_append] at hc2
        obtain ⟨hbi1, hbi2, hflat⟩ := ih (i + 1) [] hc2.symm
        have hsub : bi - i = (bi - (i + 1)) + 1 := by omega
        refine ⟨by omega, ?_, ?_⟩
        · simp only [List.length_cons]
          omega
        · rw [hsub]
          rw [show ((b :: rest).set ((bi - (i + 1)) + 1)
                (((b :: rest).getD ((bi - (i + 1)) + 1) []).eraseIdx pj))
              = b :: rest.set (bi - (i + 1))
                  ((rest.getD (bi - (i + 1)) []).eraseIdx pj) from rfl]
          rw [List.flatten_cons, hflat, ← hc1]
          simp [map_fst_enumBucket]
      | cons p c'' =>
        simp only [List.cons_append, List.cons.injEq] at hc2
        obtain ⟨rfl, rfl⟩ := hc2
        obtain ⟨rfl, hpj, hb, herase⟩ := enumBucket_split b i 0 P c'' e bi pj hc1
        refine ⟨le_refl _, by simp, ?_⟩
        rw [Nat.sub_self]
        rw [show ((b :: rest).set 0 (((b :: rest).getD 0 []).eraseIdx pj))
            = (b.eraseIdx pj) :: rest from rfl]
        rw [List.flatten_cons]
        have hpj' : pj = P.length := by omega
        subst hpj'
        rw [herase]
        have : rest.flatten = (enumTable (bi + 1) rest).map (fun x => x.1) :=
          (map_fst_enumTable _ _).symm
        rw [this]
        simp

/-- Full characterization of one eviction sweep on a non-empty table:
exactly the first entry (in bucket-then-position scan order) holding
the globally minimal `lastAccessed` is removed. -/
theorem evict_spec (t : UserHashTable β) (hne : t.table.flatten ≠ []) :
    ∃ (pre post : List (UNode β)) (e : UNode β),
      t.table.flatten = pre ++ e :: post ∧
      (evictLeastRecentlyUsed t).table.flatten = pre ++ post ∧
      (∀ x ∈ t.table.flatten, e.lastAccessed ≤ x.lastAccessed) ∧
      (∀ x ∈ pre, e.lastAccessed < x.lastAccessed) := by
  have henum : (enumTable 0 t.table).map (fun x => x.1) = t.table.flatten :=
    map_fst_enumTable 0 t.table
  have hnonnil : enumTable 0 t.table ≠ [] := by
    intro h0
    apply hne
    rw [← henum, h0]
    rfl
  have hscan : scanTable t.table 0 none = firstMin (enumTable 0 t.table) := by
    rw [scanTable_eq_scanFlat, scanFlat_none]
  cases hfm : firstMin (enumTable 0 t.table) with
  | none => exact absurd ((firstMin_eq_none_iff _).mp hfm) hnonnil
  | some m =>
    obtain ⟨la, bi, pj⟩ := m
    obtain ⟨P, e, Q, hsplit, hla, hmin, hfirst⟩ :=
      firstMin_spec _ la bi pj hfm
    obtain ⟨-, hlt, herase⟩ := enumTable_split t.table 0 P Q e bi pj hsplit
    rw [Nat.sub_zero] at hlt herase
    refine ⟨P.map (fun x => x.1), Q.map (fun x => x.1), e, ?_, ?_, ?_, ?_⟩
    · rw [← henum, hsplit]
      simp
    · rw [evictLeastRecentlyUsed, hscan, hfm]
      exact herase
    · intro x hx
      rw [← henum] at hx
      obtain ⟨y, hy, rfl⟩ := List.mem_map.mp hx
      rw [hla]
      exact hmin y hy
    · intro x hx
      obtain ⟨y, hy, rfl⟩ := List.mem_map.mp hx
      rw [hla]
      exact hfirst y hy

/-! ### Size bookkeeping -/

theorem foldl_add_length (bs : List (List γ)) (n : Nat) :
    bs.foldl (fun total bucket => total + bucket.length) n
      = n + bs.flatten.length := by
  induction bs generalizing n with
  | nil => simp
  | cons b rest ih =>
    simp only [List.foldl_cons, ih, List.flatten_cons, List.length_append]
    omega

theorem getCurrentSize_eq (t : UserHashTable β) :
    getCurrentSize t = t.table.flatten.length := by
  rw [getCurrentSize, foldl_add_length]
  omega

theorem flatten_set_length (bs : List (List γ)) (i : Nat) (b' : List γ)
    (hi : i < bs.length) :
    ((bs.set i b').flatten).length + (bs.getD i []).length
      = bs.flatten.length + b'.length := by
  induction bs generalizing i with
  | nil => simp at hi
  | cons b rest ih =>
    cases i with
    | zero =>
      rw [show (b :: rest).set 0 b' = b' :: rest from rfl,
        show (b :: rest).getD 0 [] = b from rfl]
      simp only [List.flatten_cons, List.length_append]
      omega
    | succ n =>
      have h := ih n (by simpa using hi)
      rw [show (b :: rest).set (n + 1) b' = b :: rest.set n b' from rfl,
        show (b :: rest).getD (n + 1) [] = rest.getD n [] from rfl]
      simp only [List.flatten_cons, List.length_append]
      omega

theorem evict_size (t : UserHashTable β) (hne : t.table.flatten ≠ []) :
    getCurrentSize (evictLeastRecentlyUsed t) + 1 = getCurrentSize t := by
  obtain ⟨pre, post, e, h1, h2, -, -⟩ := evict_spec t hne
  rw [getCurrentSize_eq, getCurrentSize_eq, h1, h2]
  simp only [List.length_append, List.length_cons]
  omega

theorem length_replaceInBucket (email : String) (nd : UNode β)
    (b : List (UNode β)) : (replaceInBucket email nd b).length = b.length := by
  induction b with
  | nil => rfl
  | cons e rest ih =>
    by_cases he : e.email = email <;> simp [replaceInBucket, he, ih]

/-! ### The placement invariant -/

/-- Starting at bucket index `i`, every entry of every bucket hashes to
its own bucket index. -/
def PlacedFrom (len : Nat) : Nat → List (List (UNode β)) → Prop
  | _, [] => True
  | i, b :: bs => (∀ e ∈ b, hashEmail e.email len = i) ∧ PlacedFrom len (i + 1) bs

/-- Structural well-formedness maintained by every operation: entries
sit in the bucket their email hashes to, and each bucket's email list
is duplicate-free. -/
def Wf (t : UserHashTable β) : Prop :=
  PlacedFrom t.table.length 0 t.table ∧
  ∀ b ∈ t.table, (b.map UNode.email).Nodup

theorem placed_getD (len : Nat) (bs : List (List (UNode β))) (i d : Nat)
    (h : PlacedFrom len i bs) (e : UNode β) (he : e ∈ bs.getD d []) :
    hashEmail e.email len = i + d := by
  induction bs generalizing i d with
  | nil => simp [List.getD] at he
  | cons b rest ih =>
    obtain ⟨hb, hrest⟩ := h
    cases d with
    | zero => simpa using hb e he
    | succ n =>
      have := ih (i + 1) n hrest he
      omega

theorem placed_set (len : Nat) (bs : List (List (UNode β))) (i idx : Nat)
    (b' : List (UNode β)) (h : PlacedFrom len i bs)
    (hb' : ∀ e ∈ b', hashEmail e.email len = i + idx) :
    PlacedFrom len i (bs.set idx b') := by
  induction bs generalizing i idx with
  | nil => trivial
  | cons b rest ih =>
    obtain ⟨hb, hrest⟩ := h
    cases idx with
    | zero => exact ⟨by simpa using hb', hrest⟩
    | succ n =>
      exact ⟨hb, ih (i + 1) n hrest (fun e he => by
        have := hb' e he
        omega)⟩

theorem placed_mem_ge (len : Nat) (bs : List (List (UNode β))) (i : Nat)
    (h : PlacedFrom len i bs) (e : UNode β) (he : e ∈ bs.flatten) :
    i ≤ hashEmail e.email len := by
  induction bs generalizing i with
  | nil => simp at he
  | cons b rest ih =>
    obtain ⟨hb, hrest⟩ := h
    rw [List.flatten_cons, List.mem_append] at he
    rcases he with he | he
    · exact le_of_eq (hb e he).symm
    · have := ih (i + 1) hrest he
      omega

theorem placed_mem_getD (len : Nat) (bs : List (List (UNode β))) (i : Nat)
    (h : PlacedFrom len i bs) (e : UNode β) (he : e ∈ bs.flatten) :
    e ∈ bs.getD (hashEmail e.email len - i) [] := by
  induction bs generalizing i with
  | nil => simp at he
  | cons b rest ih =>
    obtain ⟨hb, hrest⟩ := h
    rw [List.flatten_cons, List.mem_append] at he
    rcases he with he | he
    · rw [hb e he, Nat.sub_self]
      exact he
    · have hge := placed_mem_ge len rest (i + 1) hrest e he
      have hsub : hashEmail e.email len - i
          = (hashEmail e.email len - (i + 1)) + 1 := by omega
      rw [hsub]
      exact ih (i + 1) hrest he

theorem placed_flatten_nodup (len : Nat) (bs : List (List (UNode β))) (i : Nat)
    (h : PlacedFrom len i bs)
    (hnd : ∀ b ∈ bs, (b.map UNode.email).Nodup) :
    (bs.flatten.map UNode.email).Nodup := by
  induction bs generalizing i with
  | nil => simp
  | cons b rest ih =>
    obtain ⟨hb, hrest⟩ := h
    rw [List.flatten_cons, List.map_append, List.nodup_append]
    refine ⟨hnd b (List.mem_cons_self _ _),
      ih (i + 1) hrest (fun b' hb' => hnd b' (List.mem_cons_of_mem _ hb')), ?_⟩
    intro s hs hs'
    obtain ⟨e1, he1, rfl⟩ := List.mem_map.mp hs
    obtain ⟨e2, he2, hseq⟩ := List.mem_map.mp hs'
    have h1 : hashEmail e1.email len = i := hb e1 he1
    have h2 : i + 1 ≤ hashEmail e2.email len :=
      placed_mem_ge len rest (i + 1) hrest e2 he2
    rw [hseq] at h2
    omega

/-! ### Preservation of well-formedness -/

theorem mem_replaceInBucket (email : String) (nd : UNode β)
    (b : List (UNode β)) (x : UNode β) (hx : x ∈ replaceInBucket email nd b) :
    x = nd ∨ x ∈ b := by
  induction b with
  | nil => simp [replaceInBucket] at hx
  | cons e rest ih =>
    by_cases he : e.email = email
    · simp only [replaceInBucket, if_pos he, List.mem_cons] at hx
      rcases hx with rfl | hx
      · exact Or.inl rfl
      · exact Or.inr (List.mem_cons_of_mem _ hx)
    · simp only [replaceInBucket, if_neg he, List.mem_cons] at hx
      rcases hx with rfl | hx
      · exact Or.inr (List.mem_cons_self _ _)
      · rcases ih hx with h | h
        · exact Or.inl h
        · exact Or.inr (List.mem_cons_of_mem _ h)

theorem email_mem_of_mem_refreshInBucket (email : String) (now : Nat)
    (b : List (UNode β)) (x : UNode β) (hx : x ∈ refreshInBucket email now b) :
    x.email ∈ b.map UNode.email := by
  have h : x.email ∈ (refreshInBucket email now b).map UNode.email :=
    List.mem_map_of_mem UNode.email hx
  rwa [map_email_refreshInBucket] at h

theorem bucket_placed (t : UserHashTable β) (hwf : Wf t) (idx : Nat)
    (e : UNode β) (he : e ∈ bucketAt t idx) :
    hashEmail e.email t.table.length = idx := by
  have h := placed_getD t.table.length t.table 0 idx hwf.1 e he
  omega

theorem bucket_nodup (t : UserHashTable β) (hwf : Wf t) (idx : Nat) :
    ((bucketAt t idx).map UNode.email).Nodup := by
  rw [bucketAt]
  rcases getD_mem_or_nil t.table idx with h | h
  · exact hwf.2 _ h
  · rw [h]
    simp

theorem wf_update (t : UserHashTable β) (idx : Nat) (b' : List (UNode β))
    (hwf : Wf t)
    (hplace : ∀ e ∈ b', hashEmail e.email t.table.length = idx)
    (hnd : (b'.map UNode.email).Nodup) :
    Wf { t with table := t.table.set idx b' } := by
  obtain ⟨hp, hn⟩ := hwf
  constructor
  · show PlacedFrom (t.table.set idx b').length 0 (t.table.set idx b')
    rw [List.length_set]
    exact placed_set _ _ 0 idx b' hp (fun e he => by
      have h := hplace e he
      omega)
  · intro b hb
    rcases List.mem_or_eq_of_mem_set hb with h | rfl
    · exact hn b h
    · exact hnd

theorem wf_evict (t : UserHashTable β) (hwf : Wf t) :
    Wf (evictLeastRecentlyUsed t) := by
  rw [evictLeastRecentlyUsed]
  cases hscan : scanTable t.table 0 none with
  | none => exact hwf
  | some m =>
    obtain ⟨la, bi, pj⟩ := m
    exact wf_update t bi _ hwf
      (fun e he => bucket_placed t hwf bi e
        ((List.eraseIdx_sublist _ _).subset he))
      (List.Nodup.sublist (List.Sublist.map _ (List.eraseIdx_sublist _ _))
        (bucket_nodup t hwf bi))

theorem wf_evictIfOver (t : UserHashTable β) (hwf : Wf t) :
    Wf (evictIfOver t) := by
  rw [evictIfOver]
  split_ifs
  · exact wf_evict t hwf
  · exact hwf

theorem wf_set (t : UserHashTable β) (email : String) (d : β) (now : Nat)
    (hwf : Wf t) : Wf (set t email d now) := by
  rw [set]
  split_ifs with hhas
  · exact wf_update t _ _ hwf
      (fun e he => by
        rcases mem_replaceInBucket email ⟨email, d, now⟩ _ e he with rfl | he'
        · rfl
        · exact bucket_placed t hwf _ e he')
      (by
        rw [map_email_replaceInBucket email ⟨email, d, now⟩ _ rfl]
        exact bucket_nodup t hwf _)
  · apply wf_evictIfOver
    exact wf_update t _ _ hwf
      (fun e he => by
        rw [List.mem_append] at he
        rcases he with he' | he'
        · exact bucket_placed t hwf _ e he'
        · have : e = ⟨email, d, now⟩ := by simpa using he'
          subst this
          rfl)
      (by
        rw [List.map_append, List.nodup_append]
        refine ⟨bucket_nodup t hwf _, by simp, ?_⟩
        intro s hs hs'
        have hse : s = email := by simpa using hs'
        subst hse
        exact absurd ((bucketHas_iff _ _).mpr hs) (by simpa using hhas))

theorem wf_get (t : UserHashTable β) (email : String) (now : Nat)
    (hwf : Wf t) : Wf (get t email now).1 :=
  wf_update t _ _ hwf
    (fun e he => by
      have hmm := email_mem_of_mem_refreshInBucket email now _ e he
      obtain ⟨e', he', heq⟩ := List.mem_map.mp hmm
      rw [← heq]
      exact bucket_placed t hwf _ e' he')
    (by
      rw [map_email_refreshInBucket]
      exact bucket_nodup t hwf _)

theorem wf_remove (t : UserHashTable β) (email : String) (hwf : Wf t) :
    Wf (remove t email).1 := by
  rw [remove]
  split_ifs with hhas
  · exact wf_update t _ _ hwf
      (fun e he => bucket_placed t hwf _ e
        ((removeFromBucket_sublist email _).subset he))
      (List.Nodup.sublist (List.Sublist.map _ (removeFromBucket_sublist email _))
        (bucket_nodup t hwf _))
  · exact hwf

theorem placed_replicate (len n i : Nat) :
    PlacedFrom len i (List.replicate n ([] : List (UNode β))) := by
  induction n generalizing i with
  | zero => trivial
  | succ m ih => exact ⟨by simp, ih (i + 1)⟩

theorem wf_mkTable (size maxSize : Nat) : Wf (mkTable β size maxSize) := by
  constructor
  · exact placed_replicate _ size 0
  · intro b hb
    have h := List.eq_of_mem_replicate hb
    subst h
    simp

theorem wf_applyUOp (t : UserHashTable β) (op : UOp β) (hwf : Wf t) :
    Wf (applyUOp t op) := by
  cases op with
  | setU e d now => exact wf_set t e d now hwf
  | getU e now => exact wf_get t e now hwf
  | removeU e => exact wf_remove t e hwf
  | evictU => exact wf_evict t hwf

theorem wf_applyUOps (size maxSize : Nat) (ops : List (UOp β)) :
    Wf (applyUOps size maxSize ops) := by
  rw [applyUOps]
  have H : ∀ t : UserHashTable β, Wf t → Wf (ops.foldl applyUOp t) := by
    induction ops with
    | nil => exact fun t h => h
    | cons op rest ih => exact fun t h => ih _ (wf_applyUOp t op h)
  exact H _ (wf_mkTable size maxSize)

theorem length_evict (t : UserHashTable β) :
    (evictLeastRecentlyUsed t).table.length = t.table.length := by
  rw [evictLeastRecentlyUsed]
  cases scanTable t.table 0 none with
  | none => rfl
  | some m =>
    obtain ⟨la, bi, pj⟩ := m
    exact List.length_set _ _ _

theorem length_applyUOp (t : UserHashTable β) (op : UOp β) :
    (applyUOp t op).table.length = t.table.length := by
  cases op with
  | setU e d now =>
    show (set t e d now).table.length = _
    rw [set]
    split_ifs
    · exact List.length_set _ _ _
    · rw [evictIfOver]
      split_ifs
      · rw [length_evict]
        exact List.length_set _ _ _
      · exact List.length_set _ _ _
  | getU e now => exact List.length_set _ _ _
  | removeU e =>
    show (remove t e).1.table.length = _
    rw [remove]
    split_ifs
    · exact List.length_set _ _ _
    · rfl
  | evictU => exact length_evict t

theorem maxSize_evict (t : UserHashTable β) :
    (evictLeastRecentlyUsed t).maxSize = t.maxSize := by
  rw [evictLeastRecentlyUsed]
  cases scanTable t.table 0 none with
  | none => rfl
  | some m =>
    obtain ⟨la, bi, pj⟩ := m
    rfl

theorem maxSize_applyUOp (t : UserHashTable β) (op : UOp β) :
    (applyUOp t op).maxSize = t.maxSize := by
  cases op with
  | setU e d now =>
    show (set t e d now).maxSize = _
    rw [set]
    split_ifs
    · rfl
    · rw [evictIfOver]
      split_ifs
      · rw [maxSize_evict]
      · rfl
  | getU e now => rfl
  | removeU e =>
    show (remove t e).1.maxSize = _
    rw [remove]
    split_ifs <;> rfl
  | evictU => exact maxSize_evict t

theorem length_applyUOps (size maxSize : Nat) (ops : List (UOp β)) :
    (applyUOps size maxSize ops).table.length = size := by
  rw [applyUOps]
  have H : ∀ t : UserHashTable β,
      (ops.foldl applyUOp t).table.length = t.table.length := by
    induction ops with
    | nil => exact fun t => rfl
    | cons op rest ih =>
      intro t
      rw [List.foldl_cons, ih, length_applyUOp]
  rw [H]
  exact List.length_replicate _ _

theorem maxSize_applyUOps (size maxSize : Nat) (ops : List (UOp β)) :
    (applyUOps size maxSize ops).maxSize = maxSize := by
  rw [applyUOps]
  have H : ∀ t : UserHashTable β,
      (ops.foldl applyUOp t).maxSize = t.maxSize := by
    induction ops with
    | nil => exact fun t => rfl
    | cons op rest ih =>
      intro t
      rw [List.foldl_cons, ih, maxSize_applyUOp]
  rw [H]
  rfl

theorem bucket_email_subset (t : UserHashTable β) (idx : Nat) (s : String)
    (hs : s ∈ (bucketAt t idx).map UNode.email) :
    s ∈ t.table.flatten.map UNode.email := by
  obtain ⟨e, he, rfl⟩ := List.mem_map.mp hs
  refine List.mem_map_of_mem UNode.email ?_
  rw [List.mem_flatten]
  rcases getD_mem_or_nil t.table idx with h | h
  · exact ⟨_, h, he⟩
  · rw [bucketAt, h] at he
    simp at he

theorem mem_flatten_bucketHas (t : UserHashTable β) (hwf : Wf t)
    (email : String) (hmem : email ∈ t.table.flatten.map UNode.email) :
    bucketHas email (bucketAt t (hashEmail email t.table.length)) = true := by
  obtain ⟨e, he, rfl⟩ := List.mem_map.mp hmem
  have h1 := placed_mem_getD t.table.length t.table 0 hwf.1 e he
  rw [Nat.sub_zero] at h1
  rw [bucketHas_iff]
  exact List.mem_map_of_mem UNode.email h1

/-! ### Claims about `UserHashTable` -/

/-- C3.  One eviction sweep on a table holding at least one entry
removes exactly one entry: the one with the globally smallest
`lastAccessed`; among equals, the first in bucket-then-position scan
order (`t.table.flatten` lists the entries in exactly that order). -/
theorem lru_eviction_removes_first_minimum (t : UserHashTable β)
    (hne : t.table.flatten ≠ []) :
    ∃ (pre post : List (UNode β)) (e : UNode β),
      t.table.flatten = pre ++ e :: post ∧
      (evictLeastRecentlyUsed t).table.flatten = pre ++ post ∧
      (∀ x ∈ t.table.flatten, e.lastAccessed ≤ x.lastAccessed) ∧
      (∀ x ∈ pre, e.lastAccessed < x.lastAccessed) :=
  evict_spec t hne

/-- Witness for C3 at a concrete two-bucket table. -/
theorem lru_eviction_removes_first_minimum_witness :
    (⟨[[⟨"a", (0 : Nat), 5⟩], [⟨"b", 1, 3⟩]], 10⟩ :
        UserHashTable Nat).table.flatten ≠ [] ∧
    ∃ (pre post : List (UNode Nat)) (e : UNode Nat),
      (⟨[[⟨"a", (0 : Nat), 5⟩], [⟨"b", 1, 3⟩]], 10⟩ :
          UserHashTable Nat).table.flatten = pre ++ e :: post ∧
      (evictLeastRecentlyUsed (⟨[[⟨"a", (0 : Nat), 5⟩], [⟨"b", 1, 3⟩]], 10⟩ :
          UserHashTable Nat)).table.flatten = pre ++ post ∧
      (∀ x ∈ (⟨[[⟨"a", (0 : Nat), 5⟩], [⟨"b", 1, 3⟩]], 10⟩ :
          UserHashTable Nat).table.flatten,
        e.lastAccessed ≤ x.lastAccessed) ∧
      (∀ x ∈ pre, e.lastAccessed < x.lastAccessed) :=
  ⟨by decide, lru_eviction_removes_first_minimum _ (by decide)⟩

/-- On a table whose size exceeds its maximum by one, the capacity
check runs exactly one eviction, bringing the size back to the
maximum. -/
theorem evictIfOver_size (t' : UserHashTable β)
    (h : getCurrentSize t' = t'.maxSize + 1) :
    getCurrentSize (evictIfOver t') = t'.maxSize := by
  rw [evictIfOver, if_pos (by omega)]
  have hne : t'.table.flatten ≠ [] := by
    intro h0
    rw [getCurrentSize_eq, h0] at h
    simp at h
  have h2 := evict_size t' hne
  omega

theorem flatten_set_length_bucketAt (t : UserHashTable β) (i : Nat)
    (b' : List (UNode β)) (hi : i < t.table.length) :
    ((t.table.set i b').flatten).length + (bucketAt t i).length
      = t.table.flatten.length + b'.length :=
  flatten_set_length t.table i b' hi

/-- C4.  On any reachable table with a positive bucket count: a `set`
of a key that is not present anywhere, issued when the entry count
equals `maxEntries`, leaves the entry count at `maxEntries` (the push
triggers exactly one eviction); a `set` that only overwrites an
existing key never changes the entry count (no eviction runs). -/
theorem capacity_trigger (size maxSize : Nat) (ops : List (UOp β))
    (email : String) (d : β) (now : Nat) (hpos : 0 < size) :
    (getCurrentSize (applyUOps size maxSize ops) = maxSize →
      email ∉ (applyUOps size maxSize ops).table.flatten.map UNode.email →
      getCurrentSize (set (applyUOps size maxSize ops) email d now) = maxSize) ∧
    (email ∈ (applyUOps size maxSize ops).table.flatten.map UNode.email →
      getCurrentSize (set (applyUOps size maxSize ops) email d now)
        = getCurrentSize (applyUOps size maxSize ops)) := by
  have hlen : (applyUOps size maxSize ops).table.length = size :=
    length_applyUOps size maxSize ops
  have hmax : (applyUOps size maxSize ops).maxSize = maxSize :=
    maxSize_applyUOps size maxSize ops
  have hidx : hashEmail email (applyUOps size maxSize ops).table.length
      < (applyUOps size maxSize ops).table.length := by
    rw [hlen]
    exact Nat.mod_lt _ hpos
  constructor
  · intro hfull habs
    have hhas : ¬ bucketHas email
        (bucketAt (applyUOps size maxSize ops)
          (hashEmail email (applyUOps size maxSize ops).table.length)) = true := by
      intro h
      exact habs (bucket_email_subset _ _ _ ((bucketHas_iff _ _).mp h))
    rw [set, if_neg hhas]
    have hsz : getCurrentSize
        { applyUOps size maxSize ops with
          table := ((applyUOps size maxSize ops).table.set
            (hashEmail email (applyUOps size maxSize ops).table.length)
            (bucketAt (applyUOps size maxSize ops)
              (hashEmail email (applyUOps size maxSize ops).table.length)
              ++ [⟨email, d, now⟩])) }
        = (applyUOps size maxSize ops).maxSize + 1 := by
      rw [getCurrentSize_eq, hmax]
      have h := flatten_set_length_bucketAt (applyUOps size maxSize ops)
        (hashEmail email (applyUOps size maxSize ops).table.length)
        (bucketAt (applyUOps size maxSize ops)
          (hashEmail email (applyUOps size maxSize ops).table.length)
          ++ [⟨email, d, now⟩]) hidx
      rw [getCurrentSize_eq] at hfull
      simp only [List.length_append, List.length_cons, List.length_nil] at h
      show ((applyUOps size maxSize ops).table.set _ _).flatten.length = _
      omega
    have h := evictIfOver_size _ hsz
    exact h.trans hmax
  · intro hpres
    have hhas := mem_flatten_bucketHas _ (wf_applyUOps size maxSize ops)
      email hpres
    rw [set, if_pos hhas]
    rw [getCurrentSize_eq, getCurrentSize_eq]
    have h := flatten_set_length_bucketAt (applyUOps size maxSize ops)
      (hashEmail email (applyUOps size maxSize ops).table.length)
      (replaceInBucket email ⟨email, d, now⟩
        (bucketAt (applyUOps size maxSize ops)
          (hashEmail email (applyUOps size maxSize ops).table.length))) hidx
    rw [length_replaceInBucket] at h
    show ((applyUOps size maxSize ops).table.set _ _).flatten.length = _
    omega

/-- Witness for C4: a table of 5 buckets and `maxEntries = 3` filled
with three entries; adding absent key `"d"` keeps the count at 3, and
overwriting present key `"b"` keeps the count at 3 as well. -/
theorem capacity_trigger_witness :
    (0 < 5 ∧
      getCurrentSize (applyUOps 5 3
        [UOp.setU "a" (1 : Nat) 10, UOp.setU "b" 2 20, UOp.setU "c" 3 30]) = 3 ∧
      "d" ∉ (applyUOps 5 3
        [UOp.setU "a" (1 : Nat) 10, UOp.setU "b" 2 20,
          UOp.setU "c" 3 30]).table.flatten.map UNode.email ∧
      getCurrentSize (set (applyUOps 5 3
        [UOp.setU "a" (1 : Nat) 10, UOp.setU "b" 2 20, UOp.setU "c" 3 30])
        "d" 4 40) = 3) ∧
    ("b" ∈ (applyUOps 5 3
        [UOp.setU "a" (1 : Nat) 10, UOp.setU "b" 2 20,
          UOp.setU "c" 3 30]).table.flatten.map UNode.email ∧
      getCurrentSize (set (applyUOps 5 3
        [UOp.setU "a" (1 : Nat) 10, UOp.setU "b" 2 20, UOp.setU "c" 3 30])
        "b" 9 50)
        = getCurrentSize (applyUOps 5 3
            [UOp.setU "a" (1 : Nat) 10, UOp.setU "b" 2 20, UOp.setU "c" 3 30])) :=
  ⟨⟨by decide, by decide, by decide,
    (capacity_trigger 5 3
      [UOp.setU "a" (1 : Nat) 10, UOp.setU "b" 2 20, UOp.setU "c" 3 30]
      "d" 4 40 (by decide)).1 (by decide) (by decide)⟩,
    ⟨by decide,
      (capacity_trigger 5 3
        [UOp.setU "a" (1 : Nat) 10, UOp.setU "b" 2 20, UOp.setU "c" 3 30]
        "b" 9 50 (by decide)).2 (by decide)⟩⟩

/-- C9.  After any sequence of `set`, `get`, `remove` and eviction
operations starting from a fresh table, each distinct key occurs at
most once across all buckets. -/
theorem at_most_one_entry_per_key (size maxSize : Nat) (ops : List (UOp β)) :
    ((applyUOps size maxSize ops).table.flatten.map UNode.email).Nodup := by
  obtain ⟨hp, hn⟩ := wf_applyUOps size maxSize ops
  exact placed_flatten_nodup _ _ 0 hp hn

end UserHash
